import Mathlib

/-!
Verification development for the DockerVet Dockerfile linter.

The TypeScript sources are embedded shallowly: JavaScript strings become
`List Char`, JS objects become structures, JS `Map`/`Record`/`Set` become
association lists with JS insertion/overwrite semantics, and every regex
is replaced by an equivalent explicit scanner (JS regexes here never
backtrack in an observable way, as argued case by case in comments).
`localeCompare` is modelled as code-point comparison, which agrees with it
on the rule-id alphabet `[A-Z0-9]` actually used by the rule set.
-/

abbrev Str := List Char

def str (s : String) : Str := s.toList

/-- JS `\s` / `trim` whitespace class, restricted to the ASCII whitespace
characters that can occur here. -/
def wsp (c : Char) : Bool := c.isWhitespace

def openBrace : Char := '\x7b'

def closeBrace : Char := '\x7d'

/-- JS `String.prototype.trimStart`. -/
def ltrimC (s : Str) : Str := s.dropWhile wsp

/-- JS `String.prototype.trimEnd`. -/
def rtrimC (s : Str) : Str := (s.reverse.dropWhile wsp).reverse

/-- JS `String.prototype.trim`. -/
def trimC (s : Str) : Str := rtrimC (ltrimC s)

/-- JS `String.prototype.toUpperCase` (ASCII). -/
def toUpperC (s : Str) : Str := s.map Char.toUpper

/-- JS `String.prototype.toLowerCase` (ASCII). -/
def toLowerC (s : Str) : Str := s.map Char.toLower

/-- JS `s.startsWith(p)`. -/
def startsC (s p : Str) : Bool := p.isPrefixOf s

/-- JS `s.endsWith(p)`. -/
def endsC (s p : Str) : Bool := p.isSuffixOf s

/-- JS `s.indexOf(c)` for a single-character needle (-1 when absent). -/
def jsIndexOf : Str → Char → Int
  | [], _ => -1
  | c :: t, x => if c = x then 0 else (if jsIndexOf t x = -1 then -1 else jsIndexOf t x + 1)

/-- JS `s.indexOf(needle)` for a multi-character needle (-1 when absent). -/
def jsIndexOfSub (needle : Str) (hay : Str) : Int :=
  if needle.isPrefixOf hay then 0
  else match hay with
    | [] => -1
    | _ :: t => if jsIndexOfSub needle t = -1 then -1 else jsIndexOfSub needle t + 1
termination_by hay.length
decreasing_by all_goals ((try simp only [List.length_cons]); omega)

/-- JS `s.split(c)` for a single-character separator: always at least one piece. -/
def splitChar (c : Char) : Str → List Str
  | [] => [[]]
  | d :: t =>
    if d = c then [] :: splitChar c t
    else
      match splitChar c t with
      | [] => [[d]]
      | p :: ps => (d :: p) :: ps

/-- JS `s.split(/\s+/)`: one separator per maximal whitespace run. -/
def jsSplitWsAux (cur : Str) : Str → List Str
  | [] => [cur.reverse]
  | c :: t =>
    if wsp c then cur.reverse :: jsSplitWsAux [] (t.dropWhile wsp)
    else jsSplitWsAux (c :: cur) t
termination_by s => s.length
decreasing_by
  · have := (List.dropWhile_suffix (l := t) wsp).sublist.length_le
    simp only [List.length_cons]
    omega
  · simp

def jsSplitWs (s : Str) : List Str := jsSplitWsAux [] s

/-- JS `Map.prototype.get` / record field lookup on an association list. -/
def jsMapGet (m : List (Str × α)) (k : Str) : Option α :=
  (m.find? (fun e => e.1 = k)).map (·.2)

/-- Same, for numeric keys (`Map<number, …>`). -/
def jsMapGetN (m : List (Nat × α)) (k : Nat) : Option α :=
  (m.find? (fun e => e.1 = k)).map (·.2)

/-- JS `Map.prototype.set` / record field write: overwrite in place, else append. -/
def jsMapSet (m : List (Str × α)) (k : Str) (v : α) : List (Str × α) :=
  match m with
  | [] => [(k, v)]
  | e :: es => if e.1 = k then (k, v) :: es else e :: jsMapSet es k v

def jsMapSetN (m : List (Nat × α)) (k : Nat) (v : α) : List (Nat × α) :=
  match m with
  | [] => [(k, v)]
  | e :: es => if e.1 = k then (k, v) :: es else e :: jsMapSetN es k v

/-- JS `Set.prototype.add` on a membership list. -/
def jsSetAdd (s : List Str) (x : Str) : List Str :=
  if s.contains x then s else s ++ [x]

/-- `[...new Set(l)]`: deduplicate keeping first occurrences. -/
def jsSetListAux (seen : List Str) : List Str → List Str
  | [] => []
  | a :: l => if seen.contains a then jsSetListAux seen l else a :: jsSetListAux (a :: seen) l

def jsSetList (l : List Str) : List Str := jsSetListAux [] l

/-- JS `parseInt(digits, 10)` on a digit run. -/
def parseIntDec (ds : Str) : Nat := ds.foldl (fun n c => n * 10 + (c.toNat - 48)) 0

theorem dropWhile_len_le (p : Char → Bool) (l : Str) : (l.dropWhile p).length ≤ l.length :=
  (List.dropWhile_suffix p).sublist.length_le

theorem ltrimC_len_le (s : Str) : (ltrimC s).length ≤ s.length :=
  dropWhile_len_le wsp s

theorem rtrimC_len_le (s : Str) : (rtrimC s).length ≤ s.length := by
  simp only [rtrimC, List.length_reverse]
  simpa using dropWhile_len_le wsp s.reverse

theorem trimC_len_le (s : Str) : (trimC s).length ≤ s.length :=
  le_trans (rtrimC_len_le _) (ltrimC_len_le s)

/-! ## Lexer (`src/parser/lexer.ts`) -/

structure Token where
  type : Str
  line : Nat
  value : Str
  raw : Str
deriving DecidableEq

def nameStartChar (c : Char) : Bool := c.isAlpha || c = '_'

def nameChar (c : Char) : Bool := c.isAlpha || c.isDigit || c = '_'

/-- One attempted match of the heredoc opener tail after `<<`:
`-?\s*(?:"([^"]+)"|'([^']+)'|([A-Za-z_][A-Za-z0-9_]*))`.
Returns the delimiter name and the number of characters consumed.
The regex alternatives cannot backtrack into the `\s*` or the optional `-`
because none of them may begin with whitespace or `-` being skipped. -/
def hdMatch (rest : Str) : Option (Str × Nat) :=
  let dash := if startsC rest ['-'] then 1 else 0
  let r1 := rest.drop dash
  let wlen := (r1.takeWhile wsp).length
  match r1.drop wlen with
  | '"' :: t =>
    let inner := t.takeWhile (fun c => c ≠ '"')
    match inner, t.drop inner.length with
    | [], _ => none
    | d, '"' :: _ => some (d, dash + wlen + 1 + d.length + 1)
    | _, _ => none
  | '\'' :: t =>
    let inner := t.takeWhile (fun c => c ≠ '\'')
    match inner, t.drop inner.length with
    | [], _ => none
    | d, '\'' :: _ => some (d, dash + wlen + 1 + d.length + 1)
    | _, _ => none
  | c :: t =>
    if nameStartChar c then some (c :: t.takeWhile nameChar, dash + wlen + 1 + (t.takeWhile nameChar).length)
    else none
  | [] => none

/-- `extractHeredocDelimiters`: global scan for `<<-?\s*(?:"(…)"|'(…)'|name)`. -/
def extractHeredocDelims : Str → List Str
  | [] => []
  | '<' :: '<' :: rest =>
    match hdMatch rest with
    | some (d, k) => d :: extractHeredocDelims (rest.drop k)
    | none => extractHeredocDelims ('<' :: rest)
  | _ :: rest => extractHeredocDelims rest
termination_by s => s.length
decreasing_by
  · have := List.length_drop k rest
    simp only [List.length_cons]
    omega
  · simp only [List.length_cons]; omega
  · simp

/-- The continuation-joining loop of `tokenize`: returns the accumulated
instruction text and the number of extra physical lines consumed. -/
def joinCont (fullLine : Str) (ls : List Str) : Str × Nat :=
  if endsC (rtrimC fullLine) ['\\'] then
    match ls with
    | [] => (fullLine, 0)
    | next :: rest =>
      let nt := trimC next
      if startsC nt ['#'] then
        let p := joinCont ((rtrimC fullLine).dropLast ++ [' ', '\\']) rest
        (p.1, p.2 + 1)
      else
        let p := joinCont ((rtrimC fullLine).dropLast ++ [' '] ++ nt) rest
        (p.1, p.2 + 1)
  else (fullLine, 0)

theorem joinCont_consumed_le (fullLine : Str) (ls : List Str) :
    (joinCont fullLine ls).2 ≤ ls.length := by
  induction ls generalizing fullLine with
  | nil => rw [joinCont]; split <;> simp
  | cons next rest ih =>
    rw [joinCont]
    split
    · simp only []
      split
      · simpa using Nat.succ_le_succ (ih _)
      · simpa using Nat.succ_le_succ (ih _)
    · simp

/-- The heredoc-consuming loop of `tokenize`: how many following lines are
consumed before every delimiter (in declaration order) has been closed or
the input ends. -/
def consumeHeredocs : List Str → List Str → Nat
  | [], _ => 0
  | _ :: _, [] => 0
  | d :: ds, l :: ls =>
    if trimC l = d then consumeHeredocs ds ls + 1
    else consumeHeredocs (d :: ds) ls + 1

theorem consumeHeredocs_le (ds ls : List Str) : consumeHeredocs ds ls ≤ ls.length := by
  induction ls generalizing ds with
  | nil => cases ds <;> simp [consumeHeredocs]
  | cons l ls ih =>
    cases ds with
    | nil => simp [consumeHeredocs]
    | cons d ds =>
      rw [consumeHeredocs]
      split
      · simpa using Nat.succ_le_succ (ih _)
      · simpa using Nat.succ_le_succ (ih _)

/-- Main tokenizer loop (`tokenize` in `src/parser/lexer.ts`), with the
current 1-based line number made explicit. -/
def tokenizeRun : Nat → List Str → List Token
  | _, [] => []
  | n, raw :: rest =>
    let trimmed := trimC raw
    if trimmed = [] then
      ⟨str "EMPTY", n, [], raw⟩ :: tokenizeRun (n + 1) rest
    else if startsC trimmed ['#'] then
      ⟨str "COMMENT", n, trimmed, raw⟩ :: tokenizeRun (n + 1) rest
    else
      let p := joinCont raw rest
      let fullLine := p.1
      let k := p.2
      let rest1 := rest.drop k
      let delims := extractHeredocDelims (trimC fullLine)
      if delims.length > 0 then
        let m := consumeHeredocs delims rest1
        ⟨str "INSTRUCTION", n, trimC fullLine, fullLine⟩ :: tokenizeRun (n + 1 + k + m) (rest1.drop m)
      else
        ⟨str "INSTRUCTION", n, trimC fullLine, fullLine⟩ :: tokenizeRun (n + 1 + k) rest1
termination_by _ ls => ls.length
decreasing_by all_goals ((try simp only [List.length_cons, List.length_drop]); omega)

/-- `tokenize(content)`. -/
def tokenize (content : String) : List Token :=
  tokenizeRun 1 (splitChar '\n' content.toList)

/-! ## AST types (`src/parser/types.ts`) -/

/-- Union of the fields of `DockerfileInstruction` and its keyword-specific
extensions; absent (`undefined`) fields keep their defaults. `aliasName`,
`fromFlag` and `noneFlag` stand for the TS fields `alias`, `from`, `none`. -/
structure InstrData where
  type : Str
  raw : Str
  line : Nat
  arguments : Str
  flags : List (Str × Str)
  image : Str := []
  tag : Option Str := none
  digest : Option Str := none
  aliasName : Option Str := none
  platform : Option Str := none
  fromFlag : Option Str := none
  sources : List Str := []
  destination : Str := []
  chown : Option Str := none
  chmod : Option Str := none
  ports : List (Nat × Option Str) := []
  pairs : List (Str × Str) := []
  name : Str := []
  defaultValue : Option Str := none
  user : Str := []
  path : Str := []
  noneFlag : Bool := false
  cmd : Option Str := none
deriving DecidableEq

/-- A `DockerfileInstruction`; the second component is the optional
`innerInstruction` of ONBUILD. -/
inductive Instr where
  | mk (d : InstrData) (innerInstruction : Option Instr)

def Instr.data : Instr → InstrData
  | .mk d _ => d

def Instr.inner : Instr → Option Instr
  | .mk _ i => i

def instrDecEq : (a b : Instr) → Decidable (a = b)
  | .mk d1 none, .mk d2 none =>
    if h : d1 = d2 then isTrue (by rw [h]) else isFalse (by simp [Instr.mk.injEq, h])
  | .mk d1 (some x), .mk d2 (some y) =>
    if h : d1 = d2 then
      match instrDecEq x y with
      | isTrue hx => isTrue (by rw [h, hx])
      | isFalse hx => isFalse (by simp [Instr.mk.injEq, h, hx])
    else isFalse (by simp [Instr.mk.injEq, h])
  | .mk _ none, .mk _ (some _) => isFalse (by simp [Instr.mk.injEq])
  | .mk _ (some _), .mk _ none => isFalse (by simp [Instr.mk.injEq])

instance : DecidableEq Instr := instrDecEq

structure Stage where
  fromInstr : Instr
  instructions : List Instr
  index : Nat
deriving DecidableEq

structure DockerfileAST where
  stages : List Stage
  globalArgs : List Instr
  comments : List Instr
  inlineIgnores : List (Nat × List Str)
deriving DecidableEq

/-! ## Instruction payload parsing (`src/parser/index.ts`) -/

def flagNameStart (c : Char) : Bool := c.isAlpha

def flagNameChar (c : Char) : Bool := c.isAlpha || c.isDigit || c = '-'

/-- One attempted match of
`/^--([a-zA-Z][a-zA-Z0-9-]*)(?:=(\S+)|\s+(?!--|\[)(\S+))?/` against a trimmed
remainder: flag name, optional value, and the match length MINUS the three
mandatory characters `--` plus the name's first character (so the full
`m[0].length` is `3 +` the returned count). The optional value group
backtracks only into total failure (the alternatives cannot start with
whitespace), so a greedy deterministic scan is equivalent. -/
def flagMatch (t : Str) : Option (Str × Option Str × Nat) :=
  match t with
  | '-' :: '-' :: c :: u1 =>
    if flagNameStart c then
      let tk := u1.takeWhile flagNameChar
      match u1.drop tk.length with
      | '=' :: v =>
        let val := v.takeWhile (fun c => !wsp c)
        if val = [] then some (c :: tk, none, tk.length)
        else some (c :: tk, some val, tk.length + 1 + val.length)
      | rest =>
        let sp := rest.takeWhile wsp
        if sp = [] then some (c :: tk, none, tk.length)
        else
          let v := rest.drop sp.length
          if startsC v ['-', '-'] || startsC v ['['] then some (c :: tk, none, tk.length)
          else
            let val := v.takeWhile (fun c => !wsp c)
            if val = [] then some (c :: tk, none, tk.length)
            else some (c :: tk, some val, tk.length + sp.length + val.length)
    else none
  | _ => none

/-- `parseFlags(args)`: strip leading `--flag[=value]` tokens. -/
def parseFlagsLoop (flags : List (Str × Str)) (rest : Str) : List (Str × Str) × Str :=
  if hs : startsC (trimC rest) ['-', '-'] then
    match flagMatch (trimC rest) with
    | none => (flags, rest)
    | some (nm, v, k) =>
      parseFlagsLoop (jsMapSet flags nm (v.getD (str "true"))) (trimC ((trimC rest).drop (3 + k)))
  else (flags, rest)
termination_by rest.length
decreasing_by
  have hpre : (['-', '-'] : Str).length ≤ (trimC rest).length :=
    (List.isPrefixOf_iff_prefix.mp hs).length_le
  have h1 := trimC_len_le ((trimC rest).drop (3 + k))
  have h2 := List.length_drop (3 + k) (trimC rest)
  have h3 := trimC_len_le rest
  simp only [List.length_cons, List.length_nil] at hpre
  omega

def parseFlags (args : Str) : List (Str × Str) × Str := parseFlagsLoop [] args

/-- `parseShellWords(s)`: minimal quote/escape-aware splitter. -/
def shellWordsAux (inQuote : Option Char) (cur : Str) : Str → List Str
  | [] => if cur ≠ [] then [cur.reverse] else []
  | c :: rest =>
    match inQuote with
    | some q =>
      if c = q then shellWordsAux none cur rest
      else shellWordsAux (some q) (c :: cur) rest
    | none =>
      if c = '\\' then
        match rest with
        | [] => if cur ≠ [] then [cur.reverse] else []
        | d :: rest2 => shellWordsAux none (d :: cur) rest2
      else if c = '"' || c = '\'' then shellWordsAux (some c) cur rest
      else if wsp c then
        (if cur ≠ [] then [cur.reverse] else []) ++ shellWordsAux none [] rest
      else shellWordsAux none (c :: cur) rest

def parseShellWords (s : Str) : List Str := shellWordsAux none [] s

/-! JSON string-array parsing (`parseJsonArray`): `JSON.parse` restricted to
arrays of strings; any input on which `JSON.parse` fails or yields anything
else maps to `none`. -/

def jsonHexVal (c : Char) : Option Nat :=
  if c.isDigit then some (c.toNat - 48)
  else if 'a' ≤ c && c ≤ 'f' then some (c.toNat - 87)
  else if 'A' ≤ c && c ≤ 'F' then some (c.toNat - 55)
  else none

/-- JSON string body after the opening quote. Returns the decoded content and
the remainder after the closing quote. `\uXXXX` escapes outside the Unicode
scalar range fall back to NUL (surrogates are not representable as `Char`). -/
def jsonStrAux (acc : Str) : Str → Option (Str × Str)
  | [] => none
  | '"' :: r => some (acc.reverse, r)
  | '\\' :: e :: r =>
    match e with
    | '"' => jsonStrAux ('"' :: acc) r
    | '\\' => jsonStrAux ('\\' :: acc) r
    | '/' => jsonStrAux ('/' :: acc) r
    | 'b' => jsonStrAux ('\x08' :: acc) r
    | 'f' => jsonStrAux ('\x0c' :: acc) r
    | 'n' => jsonStrAux ('\n' :: acc) r
    | 'r' => jsonStrAux ('\r' :: acc) r
    | 't' => jsonStrAux ('\t' :: acc) r
    | 'u' =>
      match r with
      | h1 :: h2 :: h3 :: h4 :: r2 =>
        if (jsonHexVal h1).isSome && (jsonHexVal h2).isSome && (jsonHexVal h3).isSome
            && (jsonHexVal h4).isSome then
          jsonStrAux (Char.ofNat ((((jsonHexVal h1).getD 0 * 16 + (jsonHexVal h2).getD 0) * 16
            + (jsonHexVal h3).getD 0) * 16 + (jsonHexVal h4).getD 0) :: acc) r2
        else none
      | _ => none
    | _ => none
  | c :: r => if c.toNat < 32 then none else jsonStrAux (c :: acc) r

theorem jsonStrAux_len (acc s : Str) (cnt outr : Str) (h : jsonStrAux acc s = some (cnt, outr)) :
    outr.length < s.length := by
  induction acc, s using jsonStrAux.induct generalizing cnt outr
  all_goals (rw [jsonStrAux] at h)
  all_goals (try repeat split at h)
  all_goals (try (simp_all; done))
  all_goals (first
    | (rename_i ih; have hh := ih _ _ h; simp only [List.length_cons]; omega)
    | (rename_i ih hg; have hh := ih _ _ h; simp only [List.length_cons]; omega)
    | (rename_i f; exact f.elim)
    | simp_all)

def jsonWs (c : Char) : Bool := c = ' ' || c = '\t' || c = '\n' || c = '\r'

/-- Items of a JSON array of strings, after the opening `[`.
`first` says whether we are before the first item. -/
def jsonArrItems (first : Bool) (s : Str) : Option (List Str × Str) :=
  match h : s.dropWhile jsonWs with
  | ']' :: r => some ([], r)
  | '"' :: r =>
    if first then
      match h2 : jsonStrAux [] r with
      | some (c, r2) =>
        match jsonArrItems false r2 with
        | some (items, r3) => some (c :: items, r3)
        | none => none
      | none => none
    else none
  | ',' :: r =>
    if first then none
    else
      match h3 : r.dropWhile jsonWs with
      | '"' :: r2 =>
        match h4 : jsonStrAux [] r2 with
        | some (c, r3) =>
          match jsonArrItems false r3 with
          | some (items, r4) => some (c :: items, r4)
          | none => none
        | none => none
      | _ => none
  | _ => none
termination_by s.length
decreasing_by
  · have hd := dropWhile_len_le jsonWs s
    have hlen : ('"' :: r).length ≤ s.length := h ▸ hd
    have := jsonStrAux_len [] r _ _ h2
    simp only [List.length_cons] at hlen
    omega
  · have hd := dropWhile_len_le jsonWs s
    have hlen : (',' :: r).length ≤ s.length := h ▸ hd
    have hd2 := dropWhile_len_le jsonWs r
    have hlen2 : ('"' :: r2).length ≤ r.length := h3 ▸ hd2
    have := jsonStrAux_len [] r2 _ _ h4
    simp only [List.length_cons] at hlen hlen2
    omega

/-- `parseJsonArray(s)`. -/
def parseJsonArray (s : Str) : Option (List Str) :=
  let t := trimC s
  if startsC t ['['] && endsC t [']'] then
    match t with
    | '[' :: r =>
      match jsonArrItems true r with
      | some (items, rest) => if rest.dropWhile jsonWs = [] then some items else none
      | none => none
    | _ => none
  else none

/-- JS truthiness of a `string | undefined` field. -/
def optFalsy : Option Str → Bool
  | none => true
  | some s => s = []

/-- `parseFromArgs(args, line)`. -/
def parseFromArgs (args : Str) (line : Nat) : Instr :=
  let pf := parseFlags args
  let parts := jsSplitWs (trimC pf.2)
  let imageSpec := parts.getD 0 []
  let aliasName : Option Str :=
    if parts.length ≥ 3 && toUpperC (parts.getD 1 []) = str "AS" then some (parts.getD 2 [])
    else none
  let ib : Str × Option Str × Option Str :=
    if imageSpec.contains '@' then
      ((splitChar '@' imageSpec).getD 0 [], none, some ((splitChar '@' imageSpec).getD 1 []))
    else if imageSpec.contains ':' then
      ((splitChar ':' imageSpec).getD 0 [], some ((splitChar ':' imageSpec).getD 1 []), none)
    else (imageSpec, none, none)
  .mk { type := str "FROM", raw := str "FROM " ++ args, line := line, arguments := args,
        flags := pf.1, image := ib.1, tag := ib.2.1, digest := ib.2.2, aliasName := aliasName,
        platform := jsMapGet pf.1 (str "platform") } none

/-- `parseCopyArgs(type, args, line)` for COPY and ADD. -/
def parseCopyArgs (ty : Str) (args : Str) (line : Nat) : Instr :=
  let pf := parseFlags args
  let parts := (parseJsonArray (trimC pf.2)).getD (parseShellWords (trimC pf.2))
  .mk { type := ty, raw := ty ++ [' '] ++ args, line := line, arguments := args, flags := pf.1,
        fromFlag := jsMapGet pf.1 (str "from"),
        sources := parts.dropLast,
        destination := (parts.getLast?).getD [],
        chown := jsMapGet pf.1 (str "chown"), chmod := jsMapGet pf.1 (str "chmod") } none

/-- One token of `parseExposeArgs`: the regex `/^(\d+)(?:\/(tcp|udp))?$/i`. -/
def portToken (t : Str) : Option (Nat × Option Str) :=
  let ds := t.takeWhile Char.isDigit
  if ds = [] then none
  else
    match t.drop ds.length with
    | [] => some (parseIntDec ds, none)
    | '/' :: p =>
      if toLowerC p = str "tcp" || toLowerC p = str "udp" then
        some (parseIntDec ds, some (toLowerC p))
      else none
    | _ => none

/-- `parseExposeArgs(args, line)`. -/
def parseExposeArgs (args : Str) (line : Nat) : Instr :=
  .mk { type := str "EXPOSE", raw := str "EXPOSE " ++ args, line := line, arguments := args,
        flags := [], ports := (jsSplitWs (trimC args)).filterMap portToken } none

def envNameStart (c : Char) : Bool := c.isAlpha || c = '_'

def envNameChar (c : Char) : Bool := c.isAlpha || c.isDigit || c = '_'

/-- The value part of one `KEY=VALUE` match in `parseEnvArgs`:
`(?:"([^"]*?)"|'([^']*?)'|(\S*))`, returning the captured value and the number
of characters consumed. -/
def envValMatch (v : Str) : Str × Nat :=
  match v with
  | '"' :: t =>
    let content := t.takeWhile (fun c => c ≠ '"')
    if startsC (t.drop content.length) ['"'] then (content, 1 + content.length + 1)
    else (v.takeWhile (fun c => !wsp c), (v.takeWhile (fun c => !wsp c)).length)
  | '\'' :: t =>
    let content := t.takeWhile (fun c => c ≠ '\'')
    if startsC (t.drop content.length) ['\''] then (content, 1 + content.length + 1)
    else (v.takeWhile (fun c => !wsp c), (v.takeWhile (fun c => !wsp c)).length)
  | _ => (v.takeWhile (fun c => !wsp c), (v.takeWhile (fun c => !wsp c)).length)

/-- Global scan of `/([A-Za-z_][A-Za-z0-9_]*)=(?:"([^"]*?)"|'([^']*?)'|(\S*))/g`
(`parseEnvArgs`). On a failed match attempt the regex engine advances one
position; greedy name runs cannot backtrack into a successful match because
every shorter run is still followed by a name character, not `=`. -/
def envPairScan : Str → List (Str × Str)
  | [] => []
  | c :: rest =>
    if envNameStart c then
      match h : rest.drop (rest.takeWhile envNameChar).length with
      | '=' :: v =>
        (c :: rest.takeWhile envNameChar, (envValMatch v).1) :: envPairScan (v.drop (envValMatch v).2)
      | _ => envPairScan rest
    else envPairScan rest
termination_by s => s.length
decreasing_by
  · have h2 := congrArg List.length h
    simp only [List.length_cons, List.length_drop] at h2
    have h3 := List.length_drop (envValMatch v).2 v
    simp only [List.length_cons]
    omega
  · simp only [List.length_cons]; omega
  · simp only [List.length_cons]; omega

/-- `parseEnvArgs(args, line)`. -/
def parseEnvArgs (args : Str) (line : Nat) : Instr :=
  let trimmed := trimC args
  let pairs :=
    if trimmed.contains '=' then
      let scanned := envPairScan trimmed
      if scanned.length = 0 then
        if jsIndexOf trimmed '=' > 0 then
          [(trimmed.take (jsIndexOf trimmed '=').toNat,
            trimmed.drop ((jsIndexOf trimmed '=').toNat + 1))]
        else []
      else scanned
    else
      if jsIndexOf trimmed ' ' > 0 then
        let val := trimC (trimmed.drop ((jsIndexOf trimmed ' ').toNat + 1))
        let val2 :=
          if (startsC val ['"'] && endsC val ['"']) || (startsC val ['\''] && endsC val ['\'']) then
            (val.drop 1).dropLast
          else val
        [(trimmed.take (jsIndexOf trimmed ' ').toNat, val2)]
      else []
  .mk { type := str "ENV", raw := str "ENV " ++ args, line := line, arguments := args,
        flags := [], pairs := pairs } none

/-- `parseArgArgs(args, line)`. -/
def parseArgArgs (args : Str) (line : Nat) : Instr :=
  let trimmed := trimC args
  if jsIndexOf trimmed '=' > 0 then
    let dv := trimmed.drop ((jsIndexOf trimmed '=').toNat + 1)
    let dv2 :=
      if (startsC dv ['"'] && endsC dv ['"']) || (startsC dv ['\''] && endsC dv ['\'']) then
        (dv.drop 1).dropLast
      else dv
    .mk { type := str "ARG", raw := str "ARG " ++ args, line := line, arguments := args,
          flags := [], name := trimmed.take (jsIndexOf trimmed '=').toNat,
          defaultValue := some dv2 } none
  else
    .mk { type := str "ARG", raw := str "ARG " ++ args, line := line, arguments := args,
          flags := [], name := trimmed } none

/-- Key of a LABEL pair after `m[1].replace(/^["']|["']$/g, '')`. -/
def stripKeyQuotes (k : Str) : Str :=
  let k1 :=
    match k with
    | c :: t => if c = '"' || c = '\'' then t else k
    | [] => k
  match k1.getLast? with
  | some c => if c = '"' || c = '\'' then k1.dropLast else k1
  | none => k1

/-- The escape-aware double-quoted value body `((?:[^"\\]|\\.)*)"` of
`parseLabelArgs`, after the opening quote: captured raw content (escapes kept)
and characters consumed including the closing quote. -/
def lblDqAux (acc : Str) : Str → Option (Str × Nat)
  | [] => none
  | '"' :: _ => some (acc.reverse, acc.length + 1)
  | '\\' :: d :: r => lblDqAux (d :: '\\' :: acc) r
  | '\\' :: [] => none
  | c :: r => lblDqAux (c :: acc) r

/-- The value part of one LABEL pair match:
`(?:"((?:[^"\\]|\\.)*)"|'([^']*?)'|(\S*))`. -/
def labelValMatch (v : Str) : Str × Nat :=
  match v with
  | '"' :: t =>
    match lblDqAux [] t with
    | some (content, k) => (content, 1 + k)
    | none => (v.takeWhile (fun c => !wsp c), (v.takeWhile (fun c => !wsp c)).length)
  | '\'' :: t =>
    let content := t.takeWhile (fun c => c ≠ '\'')
    if startsC (t.drop content.length) ['\''] then (content, 1 + content.length + 1)
    else (v.takeWhile (fun c => !wsp c), (v.takeWhile (fun c => !wsp c)).length)
  | _ => (v.takeWhile (fun c => !wsp c), (v.takeWhile (fun c => !wsp c)).length)

def labelKeyChar (c : Char) : Bool := !wsp c && c ≠ '='

/-- Global scan of `/([^\s=]+)=(?:"((?:[^"\\]|\\.)*)"|'([^']*?)'|(\S*))/g`
(`parseLabelArgs`), advancing one position on failed attempts. -/
def labelPairScan : Str → List (Str × Str)
  | [] => []
  | c :: rest =>
    if labelKeyChar c then
      match h : rest.drop (rest.takeWhile labelKeyChar).length with
      | '=' :: v =>
        (stripKeyQuotes (c :: rest.takeWhile labelKeyChar), (labelValMatch v).1)
          :: labelPairScan (v.drop (labelValMatch v).2)
      | _ => labelPairScan rest
    else labelPairScan rest
termination_by s => s.length
decreasing_by
  · have h2 := congrArg List.length h
    simp only [List.length_cons, List.length_drop] at h2
    have h3 := List.length_drop (labelValMatch v).2 v
    simp only [List.length_cons]
    omega
  · simp only [List.length_cons]; omega
  · simp only [List.length_cons]; omega

/-- `parseLabelArgs(args, line)` (no trimming: the scan runs on `args`). -/
def parseLabelArgs (args : Str) (line : Nat) : Instr :=
  .mk { type := str "LABEL", raw := str "LABEL " ++ args, line := line, arguments := args,
        flags := [], pairs := labelPairScan args } none

/-- `parseHealthcheckArgs(args, line)`. -/
def parseHealthcheckArgs (args : Str) (line : Nat) : Instr :=
  let trimmed := trimC args
  if toUpperC trimmed = str "NONE" then
    .mk { type := str "HEALTHCHECK", raw := str "HEALTHCHECK " ++ args, line := line,
          arguments := args, flags := [], noneFlag := true } none
  else
    let cmdIdx := jsIndexOfSub (str "CMD") (toUpperC trimmed)
    let cmd := if cmdIdx ≥ 0 then trimC (trimmed.drop (cmdIdx.toNat + 3)) else trimmed
    .mk { type := str "HEALTHCHECK", raw := str "HEALTHCHECK " ++ args, line := line,
          arguments := args, flags := [], noneFlag := false, cmd := some cmd } none

/-- The WORKDIR unquoting test `/^["'](.+)["']$/` (`.` does not match `\n`). -/
def workdirQuoted (p : Str) : Bool :=
  p.length ≥ 3
    && (match p with
        | c :: _ => c = '"' || c = '\''
        | [] => false)
    && (match p.getLast? with
        | some c => c = '"' || c = '\''
        | none => false)
    && ((p.drop 1).dropLast.all (fun c => c ≠ '\n'))

def VALID_INSTRUCTIONS : List Str :=
  [str "FROM", str "RUN", str "CMD", str "LABEL", str "EXPOSE", str "ENV", str "ADD", str "COPY",
   str "ENTRYPOINT", str "VOLUME", str "USER", str "WORKDIR", str "ARG", str "ONBUILD",
   str "STOPSIGNAL", str "HEALTHCHECK", str "SHELL", str "MAINTAINER"]

/-- The keyword part of `parseInstruction`: text before the first space
(whole text when there is none or it is at position 0), uppercased. -/
def jsKeywordOf (value : Str) : Str :=
  toUpperC (if jsIndexOf value ' ' > 0 then value.take (jsIndexOf value ' ').toNat else value)

/-- The argument part of `parseInstruction`: text after the first space,
`''` when the space is absent or at position 0. -/
def jsArgsOf (value : Str) : Str :=
  if jsIndexOf value ' ' > 0 then value.drop ((jsIndexOf value ' ').toNat + 1) else []

theorem jsIndexOf_le (s : Str) (c : Char) :
    jsIndexOf s c = -1 ∨ (0 ≤ jsIndexOf s c ∧ (jsIndexOf s c).toNat < s.length) := by
  induction s with
  | nil => left; rfl
  | cons a t ih =>
    rw [jsIndexOf]
    by_cases hac : a = c
    · right; simp [hac]
    · simp only [hac, if_false]
      rcases ih with h1 | h2
      · left; simp [h1]
      · have hne : ¬(jsIndexOf t c = -1) := by omega
        simp only [hne, if_false, List.length_cons]
        right
        omega

theorem jsArgsOf_len (value : Str) (hne : value ≠ []) : (jsArgsOf value).length < value.length := by
  unfold jsArgsOf
  split
  · rename_i hgt
    rcases jsIndexOf_le value ' ' with h1 | h2
    · omega
    · have := List.length_drop ((jsIndexOf value ' ').toNat + 1) value
      have hlen : 0 < value.length := List.length_pos.mpr hne
      omega
  · simpa using List.length_pos.mpr hne

/-- `parseInstruction(value, line)`. -/
def parseInstruction (value : Str) (line : Nat) : Instr :=
  if hv : VALID_INSTRUCTIONS.contains (jsKeywordOf value) = false then
    .mk { type := str "RUN", raw := value, line := line, arguments := value, flags := [] } none
  else if jsKeywordOf value = str "FROM" then parseFromArgs (jsArgsOf value) line
  else if jsKeywordOf value = str "COPY" then parseCopyArgs (str "COPY") (jsArgsOf value) line
  else if jsKeywordOf value = str "ADD" then parseCopyArgs (str "ADD") (jsArgsOf value) line
  else if jsKeywordOf value = str "EXPOSE" then parseExposeArgs (jsArgsOf value) line
  else if jsKeywordOf value = str "HEALTHCHECK" then parseHealthcheckArgs (jsArgsOf value) line
  else if jsKeywordOf value = str "ENV" then parseEnvArgs (jsArgsOf value) line
  else if jsKeywordOf value = str "ARG" then parseArgArgs (jsArgsOf value) line
  else if jsKeywordOf value = str "LABEL" then parseLabelArgs (jsArgsOf value) line
  else if jsKeywordOf value = str "USER" then
    .mk { type := str "USER", raw := str "USER " ++ jsArgsOf value, line := line,
          arguments := jsArgsOf value, flags := [], user := trimC (jsArgsOf value) } none
  else if jsKeywordOf value = str "WORKDIR" then
    .mk { type := str "WORKDIR", raw := str "WORKDIR " ++ jsArgsOf value, line := line,
          arguments := jsArgsOf value, flags := [],
          path :=
            if workdirQuoted (trimC (jsArgsOf value)) then
              ((trimC (jsArgsOf value)).drop 1).dropLast
            else trimC (jsArgsOf value) } none
  else if jsKeywordOf value = str "ONBUILD" then
    .mk { type := str "ONBUILD", raw := value, line := line, arguments := jsArgsOf value,
          flags := [] } (some (parseInstruction (trimC (jsArgsOf value)) line))
  else
    .mk { type := jsKeywordOf value, raw := value, line := line, arguments := jsArgsOf value,
          flags := [] } none
termination_by value.length
decreasing_by
  have hne : value ≠ [] := by
    intro he
    subst he
    exact hv (by decide)
  have h1 := jsArgsOf_len value hne
  have h2 := trimC_len_le (jsArgsOf value)
  omega

/-- The inline-ignore directive
`/^#\s*(?:dockervet|hadolint)\s+ignore\s*=\s*(.+)$/i` applied to a comment
token's value, then `split(',').map(trim)`. When everything after `=` is
whitespace, the greedy `\s*` backtracks one character so `(.+)` captures the
final whitespace character. -/
def inlineIgnoreMatch (v : Str) : Option (List Str) :=
  match v with
  | '#' :: r =>
    let r1 := r.dropWhile wsp
    let tool : Option Str :=
      if startsC (toLowerC r1) (str "dockervet") then some (r1.drop 9)
      else if startsC (toLowerC r1) (str "hadolint") then some (r1.drop 8)
      else none
    match tool with
    | some r2 =>
      if r2.takeWhile wsp = [] then none
      else
        let r3 := r2.dropWhile wsp
        if startsC (toLowerC r3) (str "ignore") then
          match (r3.drop 6).dropWhile wsp with
          | '=' :: r6 =>
            if r6 = [] then none
            else
              let r7 := r6.dropWhile wsp
              let cap :=
                if r7 ≠ [] then r7
                else
                  match r6.getLast? with
                  | some c => [c]
                  | none => []
              some ((splitChar ',' cap).map trimC)
          | _ => none
        else none
    | none => none
  | _ => none

/-- The parser's accumulator: completed state of the token loop of `parse`.
The mutable `currentStage` alias of the source is the last element of
`stages` (it is null exactly when `stages` is empty, since only FROM pushes
and nothing resets it). -/
structure PState where
  stages : List Stage
  globalArgs : List Instr
  comments : List Instr
  inlineIgnores : List (Nat × List Str)
deriving DecidableEq

def appendToLastStage (stages : List Stage) (i : Instr) : List Stage :=
  match stages.getLast? with
  | some st => stages.dropLast ++ [{ st with instructions := st.instructions ++ [i] }]
  | none => stages

/-- One iteration of the token loop of `parse`. -/
def parseStep (acc : PState) (token : Token) : PState :=
  if token.type = str "EMPTY" then acc
  else if token.type = str "COMMENT" then
    let acc1 := { acc with
      comments := acc.comments ++
        [Instr.mk { type := str "COMMENT", raw := token.value, line := token.line,
                    arguments := token.value, flags := [] } none] }
    match inlineIgnoreMatch token.value with
    | some rules => { acc1 with inlineIgnores := jsMapSetN acc1.inlineIgnores token.line rules }
    | none => acc1
  else
    let instruction := parseInstruction token.value token.line
    if instruction.data.type = str "FROM" then
      { acc with stages := acc.stages ++ [⟨instruction, [], acc.stages.length⟩] }
    else if instruction.data.type = str "ARG" ∧ acc.stages = [] then
      { acc with globalArgs := acc.globalArgs ++ [instruction] }
    else if acc.stages ≠ [] then
      { acc with stages := appendToLastStage acc.stages instruction }
    else acc

/-- The inner stage scan of the inline-ignore resolution loop: `break` on a
stage whose FROM line matches; otherwise at most one set per stage when some
body instruction's line matches. -/
def findIgnoreTarget (L : Nat) (rules : List Str) :
    List Stage → List (Nat × List Str) → List (Nat × List Str)
  | [], m => m
  | st :: ss, m =>
    if st.fromInstr.data.line = L + 1 then jsMapSetN m (L + 1) rules
    else
      let m2 :=
        match st.instructions.find? (fun i => i.data.line = L + 1) with
        | some _ => jsMapSetN m (L + 1) rules
        | none => m
      findIgnoreTarget L rules ss m2

/-- One directive of the inline-ignore resolution loop: scan the stages for
an instruction on the line after the comment, then the unconditional
fallback `if (!has(commentLine+1)) set(commentLine+1, rules)`. -/
def resolveIgnoreStep (stages : List Stage) (m : List (Nat × List Str))
    (e : Nat × List Str) : List (Nat × List Str) :=
  let m1 := findIgnoreTarget e.1 e.2 stages m
  if (jsMapGetN m1 (e.1 + 1)).isNone then jsMapSetN m1 (e.1 + 1) e.2 else m1

/-- The inline-ignore resolution loop at the end of `parse`. -/
def resolveIgnores (stages : List Stage) (inline : List (Nat × List Str)) :
    List (Nat × List Str) :=
  inline.foldl (resolveIgnoreStep stages) []

/-- `parse(content)`. -/
def parse (content : String) : DockerfileAST :=
  let st := (tokenize content).foldl parseStep ⟨[], [], [], []⟩
  ⟨st.stages, st.globalArgs, st.comments, resolveIgnores st.stages st.inlineIgnores⟩

/-! ## Resolution helpers and rule DL3006 (`src/rules/dl/DL3006.ts`) -/

/-- One attempted match of the fragment tail (after `$`) of
`/\$\{?([A-Za-z_][A-Za-z0-9_]*)\}?/`: optional `{`, name, optional `}`;
returns the captured name and characters consumed after the `$`. A `{` not
followed by a name character makes the whole attempt fail (backtracking the
optional `{` cannot help since `{` is not a name character). -/
def fragMatch (r : Str) : Option (Str × Nat) :=
  let b := if startsC r [openBrace] then 1 else 0
  match r.drop b with
  | c :: t =>
    if nameStartChar c then
      let nm := c :: t.takeWhile nameChar
      let e := if startsC (t.drop (t.takeWhile nameChar).length) [closeBrace] then 1 else 0
      some (nm, b + nm.length + e)
    else none
  | [] => none

/-- All fragment names found by a global scan of
`/\$\{?([A-Za-z_][A-Za-z0-9_]*)\}?/g` (with duplicates, in order). -/
def varFragments : Str → List Str
  | [] => []
  | '$' :: r =>
    match h : fragMatch r with
    | some (nm, k) => nm :: varFragments (r.drop k)
    | none => varFragments r
  | _ :: r => varFragments r
termination_by s => s.length
decreasing_by
  · have := List.length_drop k r
    simp only [List.length_cons]
    omega
  · simp only [List.length_cons]; omega
  · simp only [List.length_cons]; omega

/-- `f.image.match(...)`: the first fragment name, if any. -/
def firstVarName (s : Str) : Option Str := (varFragments s).head?

/-- The truthy `defaultValue` of the first global ARG with the given name
(`argDef && argDef.defaultValue`): an empty default is falsy. -/
def argLookup (gargs : List Instr) (v : Str) : Option Str :=
  match gargs.find? (fun a => a.data.name = v) with
  | some a =>
    match a.data.defaultValue with
    | some d => if d = [] then none else some d
    | none => none
  | none => none

/-- The global replace
`f.image.replace(/\$\{?([A-Za-z_][A-Za-z0-9_]*)\}?/g, (m, v) => arg?.default ?? `${v}`)`:
resolved fragments become the ARG's (truthy) default, unresolved ones are
re-emitted in canonical braced form. -/
def substVars (gargs : List Instr) : Str → Str
  | [] => []
  | '$' :: r =>
    match h : fragMatch r with
    | some (nm, k) =>
      (match argLookup gargs nm with
       | some d => d
       | none => '$' :: openBrace :: (nm ++ [closeBrace])) ++ substVars gargs (r.drop k)
    | none => '$' :: substVars gargs r
  | c :: r => c :: substVars gargs r
termination_by s => s.length
decreasing_by
  · have := List.length_drop k r
    simp only [List.length_cons]
    omega
  · simp only [List.length_cons]; omega
  · simp only [List.length_cons]; omega

/-- Number of characters matched after the `$` by
`new RegExp(`\\$\\{?NAME\\}?`, 'g')`: optional `{`, the exact name, optional
`}` (no name-boundary check, exactly as the constructed regex). -/
def replMatchLen (nm : Str) (r : Str) : Option Nat :=
  let b := if startsC r [openBrace] then 1 else 0
  if startsC (r.drop b) nm then
    some (b + nm.length + (if startsC (r.drop (b + nm.length)) [closeBrace] then 1 else 0))
  else none

/-- `s.replace(new RegExp(`\\$\\{?NAME\\}?`, 'g'), val)`. -/
def replaceVarOcc (nm val : Str) : Str → Str
  | [] => []
  | '$' :: r =>
    match replMatchLen nm r with
    | some k => val ++ replaceVarOcc nm val (r.drop k)
    | none => '$' :: replaceVarOcc nm val r
  | c :: r => c :: replaceVarOcc nm val r
termination_by s => s.length
decreasing_by
  · have := List.length_drop k r
    simp only [List.length_cons]
    omega
  · simp only [List.length_cons]; omega
  · simp only [List.length_cons]; omega

def PLATFORM_ARG_VALUES : List (Str × List Str) :=
  [(str "TARGETARCH", [str "amd64", str "arm64", str "arm", str "armv7", str "386", str "s390x",
                       str "ppc64le", str "riscv64"]),
   (str "TARGETOS", [str "linux", str "darwin", str "windows", str "freebsd"]),
   (str "TARGETPLATFORM", [str "linux/amd64", str "linux/arm64", str "linux/arm/v7"]),
   (str "TARGETVARIANT", [str "v7", str "v6", str ""]),
   (str "BUILDARCH", [str "amd64", str "arm64"]),
   (str "BUILDOS", [str "linux"])]

def platformLookup (v : Str) : Option (List Str) := jsMapGet PLATFORM_ARG_VALUES v

/-- The recursive `expand` of `matchesPlatformVariantAlias`. -/
def expandPlat (stageAliases : List Str) : Str → List Str → Bool
  | s, [] => stageAliases.contains (toLowerC s)
  | s, h :: rest =>
    ((platformLookup h).getD []).any (fun val => expandPlat stageAliases (replaceVarOcc h val s) rest)

/-- `matchesPlatformVariantAlias(template, stageAliases)`. -/
def matchesPlatformVariantAlias (template : Str) (stageAliases : List Str) : Bool :=
  let varNames := jsSetList (varFragments template)
  if varNames.any (fun v => (platformLookup v).isNone) then false
  else expandPlat stageAliases template varNames

structure Violation where
  rule : Str
  severity : Str
  message : Str
  line : Nat
deriving DecidableEq

/-- The stage-alias set built at the top of `DL3006.check`. -/
def dl3006Aliases (stages : List Stage) : List Str :=
  stages.foldl
    (fun s st =>
      match st.fromInstr.data.aliasName with
      | some a => if a = [] then s else jsSetAdd s (toLowerC a)
      | none => s)
    []

def dl3006Message (image : Str) : Str :=
  str "Always tag the version of an image explicitly. Tag \"" ++ image
    ++ str "\" with a specific version."

/-- The body of the per-stage loop of `DL3006.check`: the violations this
stage contributes (`[]` when one of the `continue` guards fires). -/
def dl3006CheckStage (stageAliases : List Str) (gargs : List Instr) (f : Instr) : List Violation :=
  if f.data.image = str "scratch" then []
  else if stageAliases.contains (toLowerC f.data.image) then []
  else if optFalsy f.data.tag && optFalsy f.data.digest then
    if f.data.image.contains '$' then
      let skipByFirstArg :=
        match firstVarName f.data.image with
        | some argName =>
          match argLookup gargs argName with
          | some d =>
            d.contains '@' || d.contains ':' || toLowerC d = str "scratch"
              || stageAliases.contains (toLowerC d)
          | none => false
        | none => false
      if skipByFirstArg then []
      else
        let resolved := substVars gargs f.data.image
        if stageAliases.contains (toLowerC resolved) then []
        else if toLowerC resolved = str "scratch" then []
        else if matchesPlatformVariantAlias resolved stageAliases then []
        else [⟨str "DL3006", str "warning", dl3006Message f.data.image, f.data.line⟩]
    else [⟨str "DL3006", str "warning", dl3006Message f.data.image, f.data.line⟩]
  else []

/-- `DL3006.check(ctx)`. -/
def dl3006Check (ast : DockerfileAST) : List Violation :=
  ast.stages.flatMap
    (fun st => dl3006CheckStage (dl3006Aliases ast.stages) ast.globalArgs st.fromInstr)

/-! ## Transitive WORKDIR inheritance (`DL3045.check` in
`src/rules/dl/dockerfile-rules.ts`) -/

theorem filter_len_mono (p q : Str → Bool) (l : List Str) (h : ∀ x, q x = true → p x = true) :
    (l.filter q).length ≤ (l.filter p).length := by
  induction l with
  | nil => simp
  | cons b t ih =>
    by_cases hq : q b = true
    · have hp := h b hq
      simp only [List.filter_cons, hq, hp, if_true, List.length_cons]
      omega
    · simp only [List.filter_cons, hq, if_false, Bool.false_eq_true]
      by_cases hp : p b = true
      · simp only [hp, if_true, List.length_cons]
        omega
      · simp only [hp, if_false, Bool.false_eq_true]
        exact ih

theorem filter_len_lt (p q : Str → Bool) (l : List Str) (a : Str)
    (hmem : a ∈ l) (hpa : p a = true) (hqa : q a = false)
    (h : ∀ x, q x = true → p x = true) :
    (l.filter q).length < (l.filter p).length := by
  induction l with
  | nil => cases hmem
  | cons b t ih =>
    rcases List.mem_cons.mp hmem with rfl | hmem2
    · have hmono := filter_len_mono p q t h
      simp only [List.filter_cons, hpa, hqa, if_true, if_false, Bool.false_eq_true,
        List.length_cons]
      omega
    · by_cases hqb : q b = true
      · have hpb := h b hqb
        simp only [List.filter_cons, hqb, hpb, if_true, List.length_cons]
        exact Nat.succ_lt_succ (ih hmem2)
      · simp only [List.filter_cons, hqb, if_false, Bool.false_eq_true]
        by_cases hpb : p b = true
        · simp only [hpb, if_true, List.length_cons]
          exact Nat.lt_succ_of_lt (ih hmem2)
        · simp only [hpb, if_false, Bool.false_eq_true]
          exact ih hmem2

/-- `resolvedWorkdir(alias, visited)`: walk the parent-alias chain with a
visited set; an empty-string alias or parent is falsy and stops the walk. -/
def resolvedWorkdir (hasW : List (Str × Bool)) (par : List (Str × Str))
    (a : Str) (visited : List Str) : Bool :=
  if a = [] then false
  else if (jsMapGet hasW a).getD false then true
  else if hvis : visited.contains a then false
  else
    match hpar : jsMapGet par a with
    | some p => if p = [] then false else resolvedWorkdir hasW par p (jsSetAdd visited a)
    | none => false
termination_by ((par.map Prod.fst).filter (fun k => !visited.contains k)).length
decreasing_by
  have hmem : a ∈ par.map Prod.fst := by
    unfold jsMapGet at hpar
    rcases h : par.find? (fun e => e.1 = a) with _ | e
    · rw [h] at hpar; exact absurd hpar (by simp)
    · have h1 := List.find?_some h
      have hm := List.mem_of_find?_eq_some h
      simp only [decide_eq_true_eq] at h1
      exact h1 ▸ List.mem_map_of_mem Prod.fst hm
  have hvis2 : visited.contains a = false := by
    simpa using hvis
  have hnm : a ∉ visited := by simpa using hvis2
  have hadd : jsSetAdd visited a = visited ++ [a] := by
    simp [jsSetAdd, hvis2, hnm]
  refine filter_len_lt _ _ _ a hmem ?_ ?_ ?_
  · simp [hvis2, hnm]
  · simp [hadd, List.elem_iff]
  · intro x hx
    have hx3 : x ∉ visited := by
      intro hm
      simp at hx
      exact hx (hadd ▸ List.mem_append.mpr (Or.inl hm))
    simpa using hx3

/-! ## Rule execution engine (`src/engine/linter.ts`) -/

structure RuleContext where
  ast : DockerfileAST
  trustedRegistries : List Str
  requiredLabels : List Str
  allowedLabels : Option (List Str)
  filePath : Option Str

structure Rule where
  id : Str
  severity : Str
  description : Str
  check : RuleContext → List Violation

structure DockerVetConfig where
  ignore : List Str := []
  trustedRegistries : List Str := []
  requiredLabels : List Str := []
  allowedLabels : Option (List Str) := none
  override : List (Str × Option Str) := []

structure LintOptions where
  config : DockerVetConfig
  trustedRegistries : Option (List Str) := none
  filePath : Option Str := none

/-- The comparator `a.line - b.line || a.rule.localeCompare(b.rule)` is
negative exactly when this strict order holds (`localeCompare` agrees with
code-point order on `[A-Z0-9]` rule ids). -/
def strLt : Str → Str → Bool
  | [], [] => false
  | [], _ :: _ => true
  | _ :: _, [] => false
  | a :: as, b :: bs => if a.toNat < b.toNat then true else if b.toNat < a.toNat then false else strLt as bs

def violLt (a b : Violation) : Bool :=
  a.line < b.line || (a.line = b.line && strLt a.rule b.rule)

/-- Stable insertion: place `v` before the first strictly greater element
(ECMAScript `Array.prototype.sort` is stable). -/
def insertViol (v : Violation) : List Violation → List Violation
  | [] => [v]
  | w :: ws => if violLt v w then v :: w :: ws else w :: insertViol v ws

/-- A stable sort by `(line, rule id)`, modelling `violations.sort(...)`. -/
def sortViolations (l : List Violation) : List Violation :=
  l.foldr insertViol []

/-- `override?.severity` application. -/
def applyOverride (cfg : DockerVetConfig) (v : Violation) : Violation :=
  match jsMapGet cfg.override v.rule with
  | some (some s) => { v with severity := s }
  | _ => v

/-- The per-rule filtering of `lint`: skip ignored rules, drop
inline-ignored violations, apply severity overrides. -/
def lintRuleViolations (cfg : DockerVetConfig) (ast : DockerfileAST) (ctx : RuleContext)
    (r : Rule) : List Violation :=
  if cfg.ignore.contains r.id then []
  else
    (r.check ctx).filterMap
      (fun v =>
        match jsMapGetN ast.inlineIgnores v.line with
        | some lineIgnores =>
          if lineIgnores.contains v.rule then none else some (applyOverride cfg v)
        | none => some (applyOverride cfg v))

/-- The Rule Context `lint` builds from its options. -/
def lintCtx (ast : DockerfileAST) (options : LintOptions) : RuleContext :=
  { ast := ast,
    trustedRegistries := options.trustedRegistries.getD options.config.trustedRegistries,
    requiredLabels := options.config.requiredLabels,
    allowedLabels := options.config.allowedLabels,
    filePath := options.filePath }

/-- `lint(ast, options)` over an explicit registered-rule list. -/
def lint (rules : List Rule) (ast : DockerfileAST) (options : LintOptions) : List Violation :=
  sortViolations (rules.flatMap (lintRuleViolations options.config ast (lintCtx ast options)))

/-- The registered `DL3006` rule object. -/
def DL3006 : Rule :=
  { id := str "DL3006", severity := str "warning",
    description := str "Always tag the version of an image explicitly",
    check := fun ctx => dl3006Check ctx.ast }

/-! ## Claim theorems -/

unseal jsIndexOfSub jsSplitWsAux extractHeredocDelims tokenizeRun parseFlagsLoop jsonArrItems envPairScan labelPairScan parseInstruction varFragments substVars replaceVarOcc resolvedWorkdir

/-- C10: `parseExposeArgs` keeps exactly the whitespace-separated tokens
matching `^(\d+)(?:\/(tcp|udp))?$` (case-insensitively, protocol lowercased)
and silently omits every other token, so `EXPOSE 8000-9000` yields an EXPOSE
node with an empty ports list. -/
theorem c10_expose_ports_filter :
    (∀ (args : Str) (line : Nat),
      (parseExposeArgs args line).data.ports = (jsSplitWs (trimC args)).filterMap portToken)
    ∧ (parseExposeArgs (str "8000-9000") 1).data.ports = []
    ∧ (parseExposeArgs (str "8080/TCP 9090/udp 80 $PORT 8000-9000") 1).data.ports
        = [(8080, some (str "tcp")), (9090, some (str "udp")), (80, none)]
    ∧ portToken (str "8000-9000") = none
    ∧ portToken (str "$PORT") = none
    ∧ (parse "FROM x\nEXPOSE 8000-9000").stages.map
        (fun s => s.instructions.map (fun i => (i.data.type, i.data.ports)))
        = [[(str "EXPOSE", [])]] :=
  ⟨fun _ _ => rfl, by decide, by decide, by decide, by decide, by decide⟩

/-- C9: an instruction other than ARG appearing before the first FROM leaves
the parser state unchanged (it is stored nowhere), and concretely
`RUN echo hi` before the first FROM is absent from the resulting AST. -/
theorem c9_pre_from_instructions_dropped :
    (∀ (acc : PState) (t : Token),
      acc.stages = [] →
      t.type ≠ str "EMPTY" →
      t.type ≠ str "COMMENT" →
      (parseInstruction t.value t.line).data.type ≠ str "FROM" →
      (parseInstruction t.value t.line).data.type ≠ str "ARG" →
      parseStep acc t = acc)
    ∧ parse "RUN echo hi\nFROM ubuntu"
        = { stages := [⟨Instr.mk { type := str "FROM", raw := str "FROM ubuntu", line := 2,
                                   arguments := str "ubuntu", flags := [],
                                   image := str "ubuntu" } none, [], 0⟩],
            globalArgs := [], comments := [], inlineIgnores := [] } := by
  constructor
  · intro acc t hs he hc hf ha
    simp only [parseStep]
    rw [if_neg he, if_neg hc, if_neg hf, if_neg (fun hand => ha hand.1),
      if_neg (by simp [hs])]
  · decide

/-- C8: `parse` is total (it returns an AST for every input string and, being
a total Lean function, cannot throw); unknown keywords degrade to opaque
RUN-typed nodes carrying the whole text; an unterminated heredoc consumes to
the end of the input instead of failing; and an unparsable ENV payload
falls back to an empty pair list. -/
theorem c8_parse_total_on_malformed :
    (∀ content : String, ∃ ast : DockerfileAST, parse content = ast)
    ∧ (∀ (v : Str) (line : Nat),
        VALID_INSTRUCTIONS.contains (jsKeywordOf v) = false →
        (parseInstruction v line).data.type = str "RUN"
          ∧ (parseInstruction v line).data.arguments = v)
    ∧ tokenize "RUN <<EOF\npip install x"
        = [⟨str "INSTRUCTION", 1, str "RUN <<EOF", str "RUN <<EOF"⟩]
    ∧ (parseEnvArgs (str "justoneword") 1).data.pairs = [] := by
  refine ⟨fun content => ⟨parse content, rfl⟩, ?_, by decide, by decide⟩
  intro v line h
  unfold parseInstruction
  rw [dif_pos h]
  exact ⟨rfl, rfl⟩

theorem c9_pre_from_dropped_witness :
    parseStep ⟨[], [], [], []⟩ ⟨str "INSTRUCTION", 1, str "RUN echo hi", str "RUN echo hi"⟩
      = ⟨[], [], [], []⟩ :=
  c9_pre_from_instructions_dropped.1 ⟨[], [], [], []⟩
    ⟨str "INSTRUCTION", 1, str "RUN echo hi", str "RUN echo hi"⟩
    (by decide) (by decide) (by decide) (by decide) (by decide)

theorem c8_parse_total_witness :
    (parseInstruction (str "FOOBAR baz") 7).data.type = str "RUN"
      ∧ (parseInstruction (str "FOOBAR baz") 7).data.arguments = str "FOOBAR baz" :=
  c8_parse_total_on_malformed.2.1 (str "FOOBAR baz") 7 (by decide)

/-- C6: an instruction line that opens heredocs (no continuation backslash)
produces exactly one instruction token recording the line of its first
physical line; the heredoc body lines are consumed (in declaration order,
up to each closing delimiter) and are excluded from the token's text, and
tokenization continues after them. In particular
`RUN <<EOF\npip install x\nEOF` yields exactly one RUN instruction token. -/
theorem c6_heredoc_one_token :
    (∀ (n : Nat) (raw : Str) (rest : List Str),
      trimC raw ≠ [] →
      startsC (trimC raw) ['#'] = false →
      endsC (rtrimC raw) ['\\'] = false →
      extractHeredocDelims (trimC raw) ≠ [] →
      tokenizeRun n (raw :: rest)
        = ⟨str "INSTRUCTION", n, trimC raw, raw⟩
            :: tokenizeRun (n + 1 + consumeHeredocs (extractHeredocDelims (trimC raw)) rest)
                (rest.drop (consumeHeredocs (extractHeredocDelims (trimC raw)) rest)))
    ∧ tokenize "RUN <<EOF\npip install x\nEOF"
        = [⟨str "INSTRUCTION", 1, str "RUN <<EOF", str "RUN <<EOF"⟩] := by
  constructor
  · intro n raw rest h1 h2 h3 h4
    have hj : joinCont raw rest = (raw, 0) := by
      rw [joinCont.eq_def]
      simp [h3]
    rw [tokenizeRun]
    simp only [hj, h1, h2, if_false, if_neg, List.drop_zero]
    have h5 : (extractHeredocDelims (trimC raw)).length > 0 := List.length_pos.mpr h4
    simp [h5]
  · decide

theorem c6_heredoc_one_token_witness :
    tokenizeRun 1 [str "RUN <<EOF", str "pip install x", str "EOF", str "FROM x"]
      = [⟨str "INSTRUCTION", 1, str "RUN <<EOF", str "RUN <<EOF"⟩,
         ⟨str "INSTRUCTION", 4, str "FROM x", str "FROM x"⟩] :=
  (c6_heredoc_one_token.1 1 (str "RUN <<EOF") [str "pip install x", str "EOF", str "FROM x"]
    (by decide) (by decide) (by decide) (by decide)).trans (by decide)

theorem jsMapGet_all_false (hasW : List (Str × Bool)) (a : Str)
    (hall : ∀ e ∈ hasW, e.2 = false) : (jsMapGet hasW a).getD false = false := by
  rcases hf : hasW.find? (fun e => e.1 = a) with _ | e
  · simp [jsMapGet, hf]
  · simp [jsMapGet, hf, hall e (List.mem_of_find?_eq_some hf)]

/-- C4: the transitive inheritance walk terminates on every alias graph (it
is a total function, via the visited set), and whenever no stage satisfies
the tested property — in particular on a cyclic parent chain with no
qualifying ancestor — it returns `false` rather than looping. -/
theorem c4_inheritance_walk_cycle_false :
    ∀ (hasW : List (Str × Bool)) (par : List (Str × Str)) (a : Str) (visited : List Str),
      (∀ e ∈ hasW, e.2 = false) →
      resolvedWorkdir hasW par a visited = false := by
  intro hasW par a visited hall
  have hf : ∀ x, (jsMapGet hasW x).getD false = false :=
    fun x => jsMapGet_all_false hasW x hall
  induction a, visited using resolvedWorkdir.induct hasW par
  all_goals rw [resolvedWorkdir]
  all_goals repeat' split
  all_goals simp_all

theorem c4_inheritance_walk_witness :
    resolvedWorkdir [(str "a", false), (str "b", false)]
      [(str "a", str "b"), (str "b", str "a")] (str "a") [] = false :=
  c4_inheritance_walk_cycle_false _ _ _ _ (by decide)

/-- C1: `DL3006` never flags a FROM whose target names a stage alias —
matched case-insensitively, directly or after ARG-default substitution or
platform-placeholder expansion (a fortiori, one naming an earlier stage's
alias) — and it does flag an external image with no tag and no digest:
`FROM ubuntu` produces exactly the DL3006 warning at line 1, while
`FROM builder` after a stage `AS builder` produces none. -/
theorem c1_dl3006_alias_never_flagged :
    (∀ (stageAliases : List Str) (gargs : List Instr) (f : Instr),
      (stageAliases.contains (toLowerC f.data.image) = true
        ∨ (f.data.image.contains '$' = true
            ∧ stageAliases.contains (toLowerC (substVars gargs f.data.image)) = true)
        ∨ (f.data.image.contains '$' = true
            ∧ matchesPlatformVariantAlias (substVars gargs f.data.image) stageAliases = true)) →
      dl3006CheckStage stageAliases gargs f = [])
    ∧ dl3006Check (parse "FROM ubuntu")
        = [⟨str "DL3006", str "warning", dl3006Message (str "ubuntu"), 1⟩]
    ∧ dl3006Check (parse "FROM node:18 AS builder\nFROM builder") = [] := by
  refine ⟨?_, by decide, by decide⟩
  intro stageAliases gargs f h
  unfold dl3006CheckStage
  rcases h with h | ⟨hd, h⟩ | ⟨hd, h⟩ <;> split_ifs <;> simp_all

theorem c1_dl3006_alias_witness :
    dl3006CheckStage [str "builder"] []
      (Instr.mk { type := str "FROM", raw := str "FROM Builder", line := 2,
                  arguments := str "Builder", flags := [], image := str "Builder" } none)
      = [] :=
  c1_dl3006_alias_never_flagged.1 [str "builder"] [] _ (Or.inl (by decide))

/-- C2 counterexample: the claim says an unresolved fragment passes through
character-for-character; but the substitution rewrites unbraced `$FOO` (no
declared ARG) to braced `${FOO}`, so the output differs from the input. -/
theorem c2_unresolved_fragment_rewritten :
    substVars [] (str "$FOO") = str "$\x7bFOO\x7d"
      ∧ substVars [] (str "$FOO") ≠ str "$FOO" := by
  constructor <;> decide

/-- C7 counterexample: for `COPY ["a", "b", "c"]` the parsed destination is
the last array element `"c"` — not an all-but-last element as the claim
states for JSON-array form (the all-but-last elements are the sources). -/
theorem c7_json_destination_is_last :
    (parseCopyArgs (str "COPY") (str "[\"a\", \"b\", \"c\"]") 1).data.destination = str "c"
      ∧ (parseCopyArgs (str "COPY") (str "[\"a\", \"b\", \"c\"]") 1).data.sources
          = [str "a", str "b"]
      ∧ (parseCopyArgs (str "COPY") (str "[\"a\", \"b\", \"c\"]") 1).data.destination
          ∉ [str "a", str "b"] := by
  refine ⟨by decide, by decide, by decide⟩

/-- C7 (amended): after stripping leading flags, the JSON-array form takes
precedence when the remainder parses as a JSON string array, and in both
forms the destination is the LAST element and the sources are all preceding
elements in order. -/
theorem c7_copy_sources_destination :
    ∀ (ty args : Str) (line : Nat),
      ((∀ arr, parseJsonArray (trimC (parseFlags args).2) = some arr →
        (parseCopyArgs ty args line).data.destination = (arr.getLast?).getD []
          ∧ (parseCopyArgs ty args line).data.sources = arr.dropLast)
      ∧ (parseJsonArray (trimC (parseFlags args).2) = none →
        (parseCopyArgs ty args line).data.destination
            = ((parseShellWords (trimC (parseFlags args).2)).getLast?).getD []
          ∧ (parseCopyArgs ty args line).data.sources
            = (parseShellWords (trimC (parseFlags args).2)).dropLast)) := by
  intro ty args line
  constructor
  · intro arr harr
    unfold parseCopyArgs
    simp [harr, Instr.data]
  · intro hnone
    unfold parseCopyArgs
    simp [hnone, Instr.data]

theorem c7_copy_sources_destination_witness :
    (parseCopyArgs (str "ADD") (str "--chown=a:b s1 s2 /dst") 3).data.destination = str "/dst"
      ∧ (parseCopyArgs (str "ADD") (str "--chown=a:b s1 s2 /dst") 3).data.sources
        = [str "s1", str "s2"] :=
  (c7_copy_sources_destination (str "ADD") (str "--chown=a:b s1 s2 /dst") 3).2 (by decide)

theorem takeWhile_all_append (p : Char → Bool) (t : Str) (x : Char) (ys : Str)
    (ht : ∀ c ∈ t, p c = true) (hx : p x = false) :
    (t ++ x :: ys).takeWhile p = t := by
  induction t with
  | nil => simp [List.takeWhile_cons, hx]
  | cons c t ih =>
    have hc := ht c (by simp)
    simp only [List.cons_append, List.takeWhile_cons, hc, if_true]
    rw [ih (fun d hd => ht d (by simp [hd]))]

theorem fragMatch_braced (c : Char) (t suf : Str) (hc : nameStartChar c = true)
    (ht : ∀ d ∈ t, nameChar d = true) :
    fragMatch ((openBrace :: c :: t) ++ closeBrace :: suf) = some (c :: t, t.length + 3) := by
  unfold fragMatch
  have hb : startsC ((openBrace :: c :: t) ++ closeBrace :: suf) [openBrace] = true := by
    simp [startsC, List.isPrefixOf]
  rw [if_pos hb]
  have htw : (t ++ closeBrace :: suf).takeWhile nameChar = t :=
    takeWhile_all_append nameChar t closeBrace suf ht (by decide)
  simp only [List.cons_append, List.drop_succ_cons, List.drop_zero, htw]
  rw [if_pos hc]
  have hdrop : (t ++ closeBrace :: suf).drop t.length = closeBrace :: suf := List.drop_left t _
  rw [hdrop]
  have he : startsC (closeBrace :: suf) [closeBrace] = true := by
    simp [startsC, List.isPrefixOf]
  rw [if_pos he]
  simp only [List.length_cons, Option.some.injEq, Prod.mk.injEq, true_and]
  omega

theorem fragMatch_unbraced (c : Char) (t suf : Str) (hc : nameStartChar c = true)
    (ht : ∀ d ∈ t, nameChar d = true)
    (hsuf : ∀ d, suf.head? = some d → nameChar d = false ∧ d ≠ closeBrace) :
    fragMatch ((c :: t) ++ suf) = some (c :: t, t.length + 1) := by
  unfold fragMatch
  have hcb : c ≠ openBrace := by
    intro he
    rw [he] at hc
    exact absurd hc (by decide)
  simp only [List.cons_append]
  have hb : startsC (c :: (t ++ suf)) [openBrace] = false := by
    simp [startsC, List.isPrefixOf, Ne.symm hcb]
  rw [if_neg (by simp [hb])]
  have htw : (t ++ suf).takeWhile nameChar = t := by
    cases suf with
    | nil => simpa using List.takeWhile_eq_self_iff.mpr ht
    | cons d suf2 => exact takeWhile_all_append nameChar t d suf2 ht ((hsuf d rfl).1)
  simp only [List.drop_zero, List.drop_succ_cons, htw]
  rw [if_pos hc]
  have hdrop : (t ++ suf).drop t.length = suf := List.drop_left t _
  rw [hdrop]
  have he : startsC suf [closeBrace] = false := by
    cases suf with
    | nil => simp [startsC, List.isPrefixOf]
    | cons d suf2 =>
      have h2 := (hsuf d rfl).2
      simp [startsC, List.isPrefixOf, Ne.symm h2]
  rw [if_neg (by simp [he])]
  simp only [List.length_cons, Option.some.injEq, Prod.mk.injEq, true_and]
  omega

theorem substVars_step_braced (gargs : List Instr) (c : Char) (t suf : Str)
    (hc : nameStartChar c = true) (ht : ∀ d ∈ t, nameChar d = true) :
    substVars gargs ('$' :: ((openBrace :: c :: t) ++ closeBrace :: suf))
      = (match argLookup gargs (c :: t) with
         | some d => d
         | none => '$' :: openBrace :: ((c :: t) ++ [closeBrace])) ++ substVars gargs suf := by
  rw [substVars]
  split
  · rename_i nm k heq
    have h2 := (fragMatch_braced c t suf hc ht).symm.trans heq
    simp only [Option.some.injEq, Prod.mk.injEq] at h2
    obtain ⟨h3, h4⟩ := h2
    subst h3
    subst h4
    have hdrop : ((openBrace :: c :: t) ++ closeBrace :: suf).drop (t.length + 3) = suf := by
      have : (openBrace :: c :: t) ++ closeBrace :: suf
          = ((openBrace :: c :: t) ++ [closeBrace]) ++ suf := by simp
      rw [this]
      exact List.drop_left' (by simp; try omega)
    rw [hdrop]
  · rename_i heq
    rw [fragMatch_braced c t suf hc ht] at heq
    cases heq

theorem substVars_step_unbraced (gargs : List Instr) (c : Char) (t suf : Str)
    (hc : nameStartChar c = true) (ht : ∀ d ∈ t, nameChar d = true)
    (hsuf : ∀ d, suf.head? = some d → nameChar d = false ∧ d ≠ closeBrace) :
    substVars gargs ('$' :: ((c :: t) ++ suf))
      = (match argLookup gargs (c :: t) with
         | some d => d
         | none => '$' :: openBrace :: ((c :: t) ++ [closeBrace])) ++ substVars gargs suf := by
  rw [substVars]
  split
  · rename_i nm k heq
    have h2 := (fragMatch_unbraced c t suf hc ht hsuf).symm.trans heq
    simp only [Option.some.injEq, Prod.mk.injEq] at h2
    obtain ⟨h3, h4⟩ := h2
    subst h3
    subst h4
    have hdrop : ((c :: t) ++ suf).drop (t.length + 1) = suf :=
      List.drop_left' (by simp)
    rw [hdrop]
  · rename_i heq
    rw [fragMatch_unbraced c t suf hc ht hsuf] at heq
    cases heq

theorem substVars_transparent (gargs : List Instr) (pre s : Str) (hpre : ∀ c ∈ pre, c ≠ '$') :
    substVars gargs (pre ++ s) = pre ++ substVars gargs s := by
  induction pre with
  | nil => simp
  | cons c pre ih =>
    have hc : c ≠ '$' := hpre c (by simp)
    rw [List.cons_append, substVars.eq_def]
    split
    · rename_i habs
      exact absurd habs (by simp)
    · rename_i r habs
      exact absurd (List.cons.injEq .. ▸ habs).1 hc
    · rename_i c2 r habs
      have h2 := (List.cons.injEq .. ▸ habs)
      rw [← h2.2, ← h2.1]
      rw [ih (fun d hd => hpre d (by simp [hd]))]
      simp

/-- C2 (amended): substitution is transparent outside fragments; a braced
`${NAME}` fragment becomes the declared ARG's non-empty default when there is
one and otherwise passes through unchanged; an unbraced `$NAME` fragment
becomes the default when declared and otherwise is normalized to the braced
form `${NAME}` (it is NOT passed through character-for-character). -/
theorem c2_subst_fragments :
    (∀ (gargs : List Instr) (pre s : Str), (∀ c ∈ pre, c ≠ '$') →
      substVars gargs (pre ++ s) = pre ++ substVars gargs s)
    ∧ (∀ (gargs : List Instr) (c : Char) (t suf : Str),
        nameStartChar c = true → (∀ d ∈ t, nameChar d = true) →
        substVars gargs ('$' :: ((openBrace :: c :: t) ++ closeBrace :: suf))
          = (match argLookup gargs (c :: t) with
             | some d => d
             | none => '$' :: openBrace :: ((c :: t) ++ [closeBrace])) ++ substVars gargs suf)
    ∧ (∀ (gargs : List Instr) (c : Char) (t suf : Str),
        nameStartChar c = true → (∀ d ∈ t, nameChar d = true) →
        (∀ d, suf.head? = some d → nameChar d = false ∧ d ≠ closeBrace) →
        substVars gargs ('$' :: ((c :: t) ++ suf))
          = (match argLookup gargs (c :: t) with
             | some d => d
             | none => '$' :: openBrace :: ((c :: t) ++ [closeBrace])) ++ substVars gargs suf)
    ∧ substVars
        [Instr.mk { type := str "ARG", raw := str "ARG FOO=bar", line := 1,
                    arguments := str "FOO=bar", flags := [], name := str "FOO",
                    defaultValue := some (str "bar") } none]
        (str "img-$FOO:x") = str "img-bar:x"
    ∧ substVars [] (str "a-$\x7bB\x7d-c") = str "a-$\x7bB\x7d-c" :=
  ⟨substVars_transparent, substVars_step_braced, substVars_step_unbraced, by decide, by decide⟩

theorem c2_subst_fragments_witness :
    substVars [] ('$' :: ((openBrace :: 'F' :: str "OO") ++ closeBrace :: str "!"))
      = str "$\x7bFOO\x7d!" :=
  (c2_subst_fragments.2.1 [] 'F' (str "OO") (str "!") (by decide) (by decide)).trans (by decide)

theorem charToNatInj (a b : Char) (h : a.toNat = b.toNat) : a = b := by
  apply Char.ext
  apply UInt32.ext
  simpa [Char.toNat, UInt32.toNat] using h

theorem strLt_nil_right : ∀ (a : Str), strLt a [] = false
  | [] => rfl
  | _ :: _ => rfl

theorem strLt_asymm : ∀ (a b : Str), strLt a b = true → strLt b a = false
  | [], [], h => by simp [strLt] at h
  | [], _ :: _, _ => by rw [strLt_nil_right]
  | _ :: _, [], h => by simp [strLt] at h
  | a :: as, b :: bs, h => by
    rw [strLt] at h ⊢
    split at h
    · rename_i hab
      rw [if_neg (by omega), if_pos hab]
    · split at h
      · cases h
      · rename_i h1 h2
        rw [if_neg h2, if_neg h1]
        exact strLt_asymm as bs h

theorem strLt_conn : ∀ (a b : Str), strLt a b = false → strLt b a = false → a = b
  | [], [], _, _ => rfl
  | [], _ :: _, h, _ => by simp [strLt] at h
  | _ :: _, [], _, h => by simp [strLt] at h
  | a :: as, b :: bs, h1, h2 => by
    rw [strLt] at h1 h2
    split at h1
    · cases h1
    · split at h1
      · rename_i hab hba
        rw [if_pos hba] at h2
        cases h2
      · rename_i hab hba
        rw [if_neg (by omega), if_neg (by omega)] at h2
        have hchar : a = b := charToNatInj a b (by omega)
        rw [hchar, strLt_conn as bs h1 h2]

theorem strLt_trans : ∀ (a b c : Str), strLt a b = true → strLt b c = true → strLt a c = true
  | _, b, [], _, h2 => by rw [strLt_nil_right] at h2; cases h2
  | a, [], _ :: _, h1, _ => by rw [strLt_nil_right] at h1; cases h1
  | [], _ :: _, _ :: _, _, _ => by rw [strLt]
  | a :: as, b :: bs, c :: cs, h1, h2 => by
    rw [strLt] at h1 h2 ⊢
    split at h1
    · rename_i hab
      split at h2
      · rename_i hbc
        rw [if_pos (by omega)]
      · split at h2
        · cases h2
        · rename_i hcb hbc
          rw [if_pos (by omega)]
    · split at h1
      · cases h1
      · rename_i hba hab
        split at h2
        · rename_i hbc
          rw [if_pos (by omega)]
        · split at h2
          · cases h2
          · rename_i hcb hbc
            rw [if_neg (by omega), if_neg (by omega)]
            exact strLt_trans as bs cs h1 h2

theorem violLt_asymm (a b : Violation) (h : violLt a b = true) : violLt b a = false := by
  unfold violLt at h ⊢
  simp only [Bool.or_eq_true, Bool.and_eq_true, decide_eq_true_eq] at h
  rcases h with h | ⟨h1, h2⟩
  · have hne : b.line ≠ a.line := by omega
    simp [Nat.not_lt.mpr (Nat.le_of_lt h), hne]
  · simp [h1, Nat.lt_irrefl, strLt_asymm _ _ h2]

theorem violLt_total_of_ne (a b : Violation)
    (h : a.line ≠ b.line ∨ a.rule ≠ b.rule) :
    violLt a b = true ∨ violLt b a = true := by
  unfold violLt
  simp only [Bool.or_eq_true, Bool.and_eq_true, decide_eq_true_eq]
  rcases Nat.lt_trichotomy a.line b.line with hl | hl | hl
  · exact Or.inl (Or.inl hl)
  · rcases h with h | h
    · exact absurd hl h
    · rcases hr : strLt a.rule b.rule with _ | _
      · rcases hr2 : strLt b.rule a.rule with _ | _
        · exact absurd (strLt_conn _ _ hr hr2) h
        · exact Or.inr (Or.inr ⟨hl.symm, rfl⟩)
      · exact Or.inl (Or.inr ⟨hl, rfl⟩)
  · exact Or.inr (Or.inl hl)

theorem violLt_trans (a b c : Violation) (h1 : violLt a b = true) (h2 : violLt b c = true) :
    violLt a c = true := by
  unfold violLt at h1 h2 ⊢
  simp only [Bool.or_eq_true, Bool.and_eq_true, decide_eq_true_eq] at h1 h2 ⊢
  rcases h1 with h1 | ⟨h1a, h1b⟩ <;> rcases h2 with h2 | ⟨h2a, h2b⟩
  · exact Or.inl (Nat.lt_trans h1 h2)
  · exact Or.inl (h2a ▸ h1)
  · exact Or.inl (h1a ▸ h2)
  · exact Or.inr ⟨h1a.trans h2a, strLt_trans _ _ _ h1b h2b⟩

theorem insertViol_perm (v : Violation) : ∀ (l : List Violation), (insertViol v l).Perm (v :: l)
  | [] => List.Perm.refl _
  | w :: ws => by
    rw [insertViol]
    split
    · exact List.Perm.refl _
    · exact ((insertViol_perm v ws).cons w).trans (List.Perm.swap v w ws)

theorem sortViolations_perm (l : List Violation) : (sortViolations l).Perm l := by
  induction l with
  | nil => exact List.Perm.refl _
  | cons v vs ih =>
    exact (insertViol_perm v (sortViolations vs)).trans (ih.cons v)

theorem mem_sortViolations (v : Violation) (l : List Violation) :
    v ∈ sortViolations l ↔ v ∈ l :=
  (sortViolations_perm l).mem_iff

theorem mem_insertViol (x v : Violation) (l : List Violation) :
    x ∈ insertViol v l ↔ x = v ∨ x ∈ l := by
  rw [(insertViol_perm v l).mem_iff]
  simp

theorem insertViol_pairwise (v : Violation) :
    ∀ (l : List Violation), l.Pairwise (fun a b => violLt b a = false) →
      (insertViol v l).Pairwise (fun a b => violLt b a = false)
  | [], _ => by simp [insertViol]
  | w :: ws, h => by
    rw [insertViol]
    rcases List.pairwise_cons.mp h with ⟨hw, hws⟩
    split
    · rename_i hvw
      refine List.pairwise_cons.mpr ⟨?_, h⟩
      intro x hx
      rcases List.mem_cons.mp hx with rfl | hx2
      · exact violLt_asymm _ _ hvw
      · rcases hxv : violLt x v with _ | _
        · rfl
        · exact absurd (violLt_trans _ _ _ hxv hvw) (by simp [hw x hx2])
    · rename_i hvw
      refine List.pairwise_cons.mpr ⟨?_, insertViol_pairwise v ws hws⟩
      intro x hx
      rcases (mem_insertViol x v ws).mp hx with rfl | hx2
      · simpa using hvw
      · exact hw x hx2

theorem sortViolations_pairwise (l : List Violation) :
    (sortViolations l).Pairwise (fun a b => violLt b a = false) := by
  induction l with
  | nil => simp [sortViolations]
  | cons v vs ih => exact insertViol_pairwise v _ ih

theorem jsMapGetN_set_self (m : List (Nat × α)) (k : Nat) (v : α) :
    jsMapGetN (jsMapSetN m k v) k = some v := by
  induction m with
  | nil => simp [jsMapSetN, jsMapGetN]
  | cons e es ih =>
    rw [jsMapSetN]
    split
    · simp [jsMapGetN]
    · rename_i hne
      unfold jsMapGetN at ih ⊢
      rw [List.find?_cons_of_neg _ (by simpa using hne)]
      exact ih

theorem jsMapGetN_set_other (m : List (Nat × α)) (k : Nat) (v : α) (n : Nat) (h : n ≠ k) :
    jsMapGetN (jsMapSetN m k v) n = jsMapGetN m n := by
  induction m with
  | nil =>
    unfold jsMapGetN jsMapSetN
    rw [List.find?_cons_of_neg _ (by simpa using Ne.symm h)]
  | cons e es ih =>
    rw [jsMapSetN]
    split
    · rename_i hek
      unfold jsMapGetN
      rw [List.find?_cons_of_neg _ (by simp [Ne.symm h]),
        List.find?_cons_of_neg _ (by simp [hek, Ne.symm h])]
    · rename_i hne
      by_cases hen : e.1 = n
      · unfold jsMapGetN
        rw [List.find?_cons_of_pos _ (by simp [hen]), List.find?_cons_of_pos _ (by simp [hen])]
      · unfold jsMapGetN at ih ⊢
        rw [List.find?_cons_of_neg _ (by simp [hen]), List.find?_cons_of_neg _ (by simp [hen])]
        exact ih

theorem findIgnoreTarget_get_other (L : Nat) (rules : List Str) :
    ∀ (stages : List Stage) (m : List (Nat × List Str)) (n : Nat), n ≠ L + 1 →
      jsMapGetN (findIgnoreTarget L rules stages m) n = jsMapGetN m n
  | [], m, n, _ => rfl
  | st :: ss, m, n, h => by
    rw [findIgnoreTarget]
    split
    · exact jsMapGetN_set_other m (L + 1) rules n h
    · split
      · rw [findIgnoreTarget_get_other L rules ss _ n h]
        exact jsMapGetN_set_other m (L + 1) rules n h
      · exact findIgnoreTarget_get_other L rules ss m n h

theorem findIgnoreTarget_get_self (L : Nat) (rules : List Str) :
    ∀ (stages : List Stage) (m : List (Nat × List Str)),
      jsMapGetN (findIgnoreTarget L rules stages m) (L + 1) = some rules
        ∨ findIgnoreTarget L rules stages m = m
  | [], m => Or.inr rfl
  | st :: ss, m => by
    rw [findIgnoreTarget]
    split
    · exact Or.inl (jsMapGetN_set_self m (L + 1) rules)
    · split
      · rcases findIgnoreTarget_get_self L rules ss (jsMapSetN m (L + 1) rules) with h2 | h2
        · exact Or.inl h2
        · rw [h2]
          exact Or.inl (jsMapGetN_set_self m (L + 1) rules)
      · exact findIgnoreTarget_get_self L rules ss m

theorem resolveIgnoreStep_get_self (stages : List Stage) (m : List (Nat × List Str))
    (e : Nat × List Str) (h : jsMapGetN m (e.1 + 1) = none) :
    jsMapGetN (resolveIgnoreStep stages m e) (e.1 + 1) = some e.2 := by
  unfold resolveIgnoreStep
  rcases findIgnoreTarget_get_self e.1 e.2 stages m with h2 | h2
  · simp only [h2, Option.isNone_some, Bool.false_eq_true, if_false]
  · simp only [h2, h, Option.isNone_none, if_true]
    exact jsMapGetN_set_self _ _ _

theorem resolveIgnoreStep_get_other (stages : List Stage) (m : List (Nat × List Str))
    (e : Nat × List Str) (n : Nat) (h : n ≠ e.1 + 1) :
    jsMapGetN (resolveIgnoreStep stages m e) n = jsMapGetN m n := by
  by_cases hf : (jsMapGetN (findIgnoreTarget e.1 e.2 stages m) (e.1 + 1)).isNone = true
  · simp only [resolveIgnoreStep, hf, if_true]
    rw [jsMapGetN_set_other _ _ _ _ h]
    exact findIgnoreTarget_get_other e.1 e.2 stages m n h
  · simp only [resolveIgnoreStep, hf, Bool.false_eq_true, if_false]
    exact findIgnoreTarget_get_other e.1 e.2 stages m n h

theorem resolveIgnores_foldl_other (stages : List Stage) :
    ∀ (todo : List (Nat × List Str)) (m : List (Nat × List Str)) (n : Nat),
      (∀ e ∈ todo, e.1 + 1 ≠ n) →
      jsMapGetN (todo.foldl (resolveIgnoreStep stages) m) n = jsMapGetN m n
  | [], m, n, _ => rfl
  | e :: es, m, n, h => by
    rw [List.foldl_cons]
    rw [resolveIgnores_foldl_other stages es _ n (fun e2 he2 => h e2 (by simp [he2]))]
    exact resolveIgnoreStep_get_other stages m e n (Ne.symm (h e (by simp)))

theorem resolveIgnores_foldl_mem (stages : List Stage) :
    ∀ (todo : List (Nat × List Str)) (m : List (Nat × List Str)),
      (todo.map Prod.fst).Nodup →
      (∀ e ∈ todo, jsMapGetN m (e.1 + 1) = none) →
      ∀ L rs, (L, rs) ∈ todo →
        jsMapGetN (todo.foldl (resolveIgnoreStep stages) m) (L + 1) = some rs
  | [], _, _, _, L, rs, hmem => absurd hmem (by simp)
  | (L2, rs2) :: es, m, hnd, hfresh, L, rs, hmem => by
    rw [List.foldl_cons]
    rcases List.mem_cons.mp hmem with heq | hmem2
    · injection heq with h1 h2
      subst h1
      subst h2
      rw [resolveIgnores_foldl_other stages es _ (L + 1) ?_]
      · exact resolveIgnoreStep_get_self stages m (L, rs) (hfresh (L, rs) (by simp))
      · intro e2 he2
        have : e2.1 ≠ L := by
          intro heq2
          have hmem3 : e2.1 ∈ es.map Prod.fst := List.mem_map_of_mem Prod.fst he2
          rw [heq2] at hmem3
          exact (List.nodup_cons.mp hnd).1 hmem3
        omega
    · refine resolveIgnores_foldl_mem stages es _ (List.nodup_cons.mp hnd).2 ?_ L rs hmem2
      intro e2 he2
      rw [resolveIgnoreStep_get_other stages m (L2, rs2) (e2.1 + 1) ?_]
      · exact hfresh e2 (by simp [he2])
      · have : e2.1 ≠ L2 := by
          intro heq2
          have hmem3 : e2.1 ∈ es.map Prod.fst := List.mem_map_of_mem Prod.fst he2
          rw [heq2] at hmem3
          exact (List.nodup_cons.mp hnd).1 hmem3
        omega

theorem applyOverride_rule (cfg : DockerVetConfig) (v : Violation) :
    (applyOverride cfg v).rule = v.rule := by
  unfold applyOverride
  rcases jsMapGet cfg.override v.rule with _ | s
  · rfl
  · rcases s with _ | s2 <;> rfl

theorem applyOverride_empty (cfg : DockerVetConfig) (v : Violation)
    (h : cfg.override = []) : applyOverride cfg v = v := by
  unfold applyOverride
  rw [h]
  rfl

theorem mem_lintRuleViolations (cfg : DockerVetConfig) (ast : DockerfileAST)
    (ctx : RuleContext) (r : Rule) (v : Violation) (hov : cfg.override = []) :
    v ∈ lintRuleViolations cfg ast ctx r ↔
      cfg.ignore.contains r.id = false
        ∧ v ∈ r.check ctx
        ∧ (∀ igs, jsMapGetN ast.inlineIgnores v.line = some igs →
            igs.contains v.rule = false) := by
  unfold lintRuleViolations
  split
  · rename_i hig
    simp only [List.not_mem_nil, false_iff]
    intro hcontra
    rw [hig] at hcontra
    exact absurd hcontra.1 (by simp)
  · rename_i hig
    rw [List.mem_filterMap]
    constructor
    · rintro ⟨w, hw, hsome⟩
      rcases hres : jsMapGetN ast.inlineIgnores w.line with _ | igs
      · rw [hres] at hsome
        have hsome2 : some (applyOverride cfg w) = some v := hsome
        rw [applyOverride_empty cfg w hov] at hsome2
        injection hsome2 with hwv
        subst hwv
        refine ⟨by simpa using hig, hw, ?_⟩
        intro igs2 higs2
        rw [hres] at higs2
        cases higs2
      · rw [hres] at hsome
        have hsome2 : (if igs.contains w.rule = true then none
            else some (applyOverride cfg w)) = some v := hsome
        by_cases hcon : igs.contains w.rule = true
        · rw [if_pos hcon] at hsome2
          cases hsome2
        · rw [if_neg hcon] at hsome2
          rw [applyOverride_empty cfg w hov] at hsome2
          injection hsome2 with hwv
          subst hwv
          refine ⟨by simpa using hig, hw, ?_⟩
          intro igs2 higs2
          rw [hres] at higs2
          injection higs2 with he
          subst he
          simpa using hcon
    · rintro ⟨_, hw, hinl⟩
      refine ⟨v, hw, ?_⟩
      show (match jsMapGetN ast.inlineIgnores v.line with
        | some lineIgnores =>
          if lineIgnores.contains v.rule = true then none else some (applyOverride cfg v)
        | none => some (applyOverride cfg v)) = some v
      cases hres : jsMapGetN ast.inlineIgnores v.line with
      | none =>
        show some (applyOverride cfg v) = some v
        rw [applyOverride_empty cfg v hov]
      | some igs =>
        show (if igs.contains v.rule = true then none
          else some (applyOverride cfg v)) = some v
        have hic := hinl igs hres
        rw [if_neg (by simp only [hic]; simp), applyOverride_empty cfg v hov]

/-- C3 counterexample: in `# dockervet ignore=DL3006\n\nFROM ubuntu` the
instruction immediately following the directive comment (line 1) is the FROM
at line 3, yet lint still reports its DL3006 violation — suppression is
keyed to line 2 (the comment's line + 1), not to the following instruction. -/
theorem c3_gap_not_suppressed :
    (parse "# dockervet ignore=DL3006\n\nFROM ubuntu").comments.map (fun c => c.data.line) = [1]
      ∧ (parse "# dockervet ignore=DL3006\n\nFROM ubuntu").stages.map
          (fun s => s.fromInstr.data.line) = [3]
      ∧ (parse "# dockervet ignore=DL3006\n\nFROM ubuntu").inlineIgnores
          = [(2, [str "DL3006"])]
      ∧ (lint [DL3006] (parse "# dockervet ignore=DL3006\n\nFROM ubuntu") { config := {} }).map
          (fun v => (v.rule, v.line)) = [(str "DL3006", 3)] :=
  ⟨by decide, by decide, by decide, by decide⟩

/-- C3 (amended): an inline-ignore directive at comment line `L` maps exactly
the named rule ids to line `L + 1`, and `lint` drops a candidate violation
precisely when the resolved map at the violation's own line names its rule id
— so suppression applies only at the line immediately after the comment
(where the next instruction usually starts), never file-wide; an adjacent
instruction is suppressed and identical violations at other lines are kept. -/
theorem c3_inline_ignore_next_line :
    (∀ (rules : List Rule) (ast : DockerfileAST) (opts : LintOptions) (v : Violation),
      opts.config.override = [] →
      (v ∈ lint rules ast opts ↔
        ∃ r ∈ rules, opts.config.ignore.contains r.id = false
          ∧ v ∈ r.check (lintCtx ast opts)
          ∧ (∀ igs, jsMapGetN ast.inlineIgnores v.line = some igs →
              igs.contains v.rule = false)))
    ∧ (∀ (stages : List Stage) (inline : List (Nat × List Str)),
        (inline.map Prod.fst).Nodup →
        (∀ L rs, (L, rs) ∈ inline →
            jsMapGetN (resolveIgnores stages inline) (L + 1) = some rs)
          ∧ (∀ n, (∀ e ∈ inline, e.1 + 1 ≠ n) →
              jsMapGetN (resolveIgnores stages inline) n = none))
    ∧ lint [DL3006] (parse "# dockervet ignore=DL3006\nFROM ubuntu") { config := {} } = []
    ∧ (lint [DL3006] (parse "# dockervet ignore=DL3006\nFROM ubuntu\nFROM debian")
        { config := {} }).map (fun v => (v.rule, v.line)) = [(str "DL3006", 3)] := by
  refine ⟨?_, ?_, by decide, by decide⟩
  · intro rules ast opts v hov
    unfold lint
    rw [mem_sortViolations, List.mem_flatMap]
    constructor
    · rintro ⟨r, hr, hv⟩
      exact ⟨r, hr, (mem_lintRuleViolations opts.config ast (lintCtx ast opts) r v hov).mp hv⟩
    · rintro ⟨r, hr, h⟩
      exact ⟨r, hr, (mem_lintRuleViolations opts.config ast (lintCtx ast opts) r v hov).mpr h⟩
  · intro stages inline hnd
    refine ⟨?_, ?_⟩
    · intro L rs hmem
      exact resolveIgnores_foldl_mem stages inline [] hnd (fun _ _ => rfl) L rs hmem
    · intro n hn
      exact resolveIgnores_foldl_other stages inline [] n hn

theorem c3_inline_ignore_witness :
    jsMapGetN (resolveIgnores [] [(1, [str "DL3006"]), (5, [str "DL3007"])]) 2
        = some [str "DL3006"]
      ∧ jsMapGetN (resolveIgnores [] [(1, [str "DL3006"]), (5, [str "DL3007"])]) 3 = none :=
  ⟨(c3_inline_ignore_next_line.2.1 [] [(1, [str "DL3006"]), (5, [str "DL3007"])]
      (by decide)).1 1 [str "DL3006"] (by decide),
   (c3_inline_ignore_next_line.2.1 [] [(1, [str "DL3006"]), (5, [str "DL3007"])]
      (by decide)).2 3 (by decide)⟩

theorem insertViol_comm (a b : Violation) (hcomp : violLt a b = true ∨ violLt b a = true) :
    ∀ (M : List Violation), insertViol a (insertViol b M) = insertViol b (insertViol a M) := by
  have main : ∀ (x y : Violation), violLt x y = true →
      ∀ M, insertViol x (insertViol y M) = insertViol y (insertViol x M) := by
    intro x y hxy
    have hyx : violLt y x = false := violLt_asymm _ _ hxy
    intro M
    induction M with
    | nil =>
      simp only [insertViol, hxy, if_true, hyx, Bool.false_eq_true, if_false]
    | cons w ws ih =>
      rw [insertViol, insertViol]
      by_cases hyw : violLt y w = true
      · have hxw : violLt x w = true := violLt_trans _ _ _ hxy hyw
        rw [if_pos hyw, if_pos hxw, insertViol, if_pos hxy, insertViol, if_neg (by simp [hyx]),
          insertViol, if_pos hyw]
      · rw [if_neg hyw]
        by_cases hxw : violLt x w = true
        · rw [if_pos hxw, insertViol, if_pos hxw, insertViol, if_neg (by simp [hyx]),
            insertViol, if_neg hyw]
        · rw [if_neg hxw, insertViol, if_neg hxw, insertViol, if_neg hyw, ih]
  rcases hcomp with h | h
  · exact main a b h
  · intro M
    exact (main b a h M).symm

theorem insertViol_foldr (a : Violation) (ys : List Violation)
    (h : ∀ b ∈ ys, violLt a b = true ∨ violLt b a = true) :
    ∀ M, insertViol a (ys.foldr insertViol M) = ys.foldr insertViol (insertViol a M) := by
  induction ys with
  | nil => intro M; rfl
  | cons y ys ih =>
    intro M
    simp only [List.foldr_cons]
    rw [insertViol_comm a y (h y (by simp)) (ys.foldr insertViol M),
      ih (fun b hb => h b (by simp [hb])) M]

theorem insertAll_comm (xs ys : List Violation)
    (h : ∀ a ∈ xs, ∀ b ∈ ys, violLt a b = true ∨ violLt b a = true) :
    ∀ M, xs.foldr insertViol (ys.foldr insertViol M) = ys.foldr insertViol (xs.foldr insertViol M) := by
  induction xs with
  | nil => intro M; rfl
  | cons x xs ih =>
    intro M
    simp only [List.foldr_cons]
    rw [ih (fun a ha => h a (by simp [ha])) M,
      insertViol_foldr x ys (h x (by simp)) (xs.foldr insertViol M)]

theorem sortFlat_perm (F : Rule → List Violation) :
    ∀ (l₁ l₂ : List Rule), l₁.Perm l₂ →
      (∀ r ∈ l₁, ∀ v ∈ F r, v.rule = r.id) →
      ((l₁.map Rule.id).Nodup) →
      sortViolations (l₁.flatMap F) = sortViolations (l₂.flatMap F) := by
  intro l₁ l₂ hp
  induction hp with
  | nil => intro _ _; rfl
  | cons x hrest ih =>
    intro hown hnd
    have hnd2 : ∀ {t : List Rule}, ((x :: t).map Rule.id).Nodup → ((t.map Rule.id).Nodup) := by
      intro t ht
      simp only [List.map_cons, List.nodup_cons] at ht
      exact ht.2
    have ih2 := ih (fun r hr => hown r (by simp [hr])) (hnd2 hnd)
    simp only [List.flatMap_cons, sortViolations, List.foldr_append] at ih2 ⊢
    rw [ih2]
  | swap x y l =>
    intro hown hnd
    have hnd3 : ¬ y.id = x.id := by
      simp only [List.map_cons, List.nodup_cons, List.mem_cons] at hnd
      exact fun he => hnd.1 (Or.inl he)
    have hcomp : ∀ a ∈ F y, ∀ b ∈ F x, violLt a b = true ∨ violLt b a = true := by
      intro a ha b hb
      refine violLt_total_of_ne a b (Or.inr ?_)
      rw [hown y (by simp) a ha, hown x (by simp) b hb]
      exact hnd3
    simp only [List.flatMap_cons, sortViolations, List.foldr_append]
    exact insertAll_comm (F y) (F x) hcomp (List.foldr insertViol [] (l.flatMap F))
  | trans h12 h23 ih12 ih23 =>
    intro hown hnd
    refine (ih12 hown hnd).trans (ih23 ?_ ?_)
    · intro r hr
      exact hown r (h12.mem_iff.mpr hr)
    · exact ((h12.map Rule.id).nodup_iff).mp hnd

theorem lintRuleViolations_rule (cfg : DockerVetConfig) (ast : DockerfileAST)
    (ctx : RuleContext) (r : Rule) (h : ∀ v ∈ r.check ctx, v.rule = r.id) :
    ∀ v ∈ lintRuleViolations cfg ast ctx r, v.rule = r.id := by
  intro v hv
  unfold lintRuleViolations at hv
  split at hv
  · cases hv
  · obtain ⟨w, hw, hsome⟩ := List.mem_filterMap.mp hv
    have hvw : v = applyOverride cfg w := by
      rcases hres : jsMapGetN ast.inlineIgnores w.line with _ | igs
      · rw [hres] at hsome
        have h2 : some (applyOverride cfg w) = some v := hsome
        injection h2 with h3
        exact h3.symm
      · rw [hres] at hsome
        have h2 : (if igs.contains w.rule = true then none
            else some (applyOverride cfg w)) = some v := hsome
        split at h2
        · cases h2
        · injection h2 with h3
          exact h3.symm
    rw [hvw, applyOverride_rule]
    exact h w hw

/-- C5: for every AST and configuration the violation list returned by `lint`
is sorted by line ascending with ties broken by rule id ascending (code-point
order, which `localeCompare` matches on the `[A-Z0-9]` id alphabet), and —
for rule sets whose rules emit violations tagged with their own distinct ids,
as every registered rule does — the result does not depend on the order in
which the rules are registered. -/
theorem c5_lint_sorted_order_independent :
    (∀ (rules : List Rule) (ast : DockerfileAST) (opts : LintOptions),
      (lint rules ast opts).Pairwise (fun a b => violLt b a = false))
    ∧ (∀ (rules rules' : List Rule) (ast : DockerfileAST) (opts : LintOptions),
        rules.Perm rules' →
        (∀ r ∈ rules, ∀ v ∈ r.check (lintCtx ast opts), v.rule = r.id) →
        ((rules.map Rule.id).Nodup) →
        lint rules ast opts = lint rules' ast opts) := by
  constructor
  · intro rules ast opts
    exact sortViolations_pairwise _
  · intro rules rules' ast opts hp hown hnd
    unfold lint
    exact sortFlat_perm (lintRuleViolations opts.config ast (lintCtx ast opts)) rules rules' hp
      (fun r hr => lintRuleViolations_rule _ _ _ r (hown r hr)) hnd

theorem c5_lint_sorted_witness :
    lint [⟨str "R1", str "warning", str "d1", fun _ => [⟨str "R1", str "warning", str "m1", 2⟩]⟩,
          ⟨str "R2", str "warning", str "d2", fun _ => [⟨str "R2", str "warning", str "m2", 1⟩]⟩]
        (parse "FROM ubuntu:1") { config := {} }
      = lint [⟨str "R2", str "warning", str "d2", fun _ => [⟨str "R2", str "warning", str "m2", 1⟩]⟩,
              ⟨str "R1", str "warning", str "d1", fun _ => [⟨str "R1", str "warning", str "m1", 2⟩]⟩]
          (parse "FROM ubuntu:1") { config := {} } :=
  c5_lint_sorted_order_independent.2 _ _ (parse "FROM ubuntu:1") { config := {} }
    (List.Perm.swap _ _ _) (by decide) (by decide)
